import Mathlib

/-!
Verification development for the ak-gemini AI transformation module
(`src/index.js`).

The development shallowly embeds the two subsystems the specification
calls THE CORE:

* the Response Parser (`extractJSON` and its helper strategies,
  `attemptJSONRecovery`, `findCompleteJSONStructures`,
  `extractCompleteStructure`, `isJSONStr`), and
* the Transformation Orchestrator (`prepareAndValidateMessage` with its
  collaborators `rawMessage` and `rebuildPayload`, the per-call retry
  loop, exponential backoff, and the cumulative usage accumulator).

JavaScript strings are modelled as `List Char`, JSON values by the
inductive type `Json` (numbers keep their source literal, which is all
the claims need), `JSON.parse` by a fuel-indexed recursive-descent
parser `pstep` implementing exactly the json.org grammar, and
`JSON.stringify(x, null, 2)` by `stringify2`.  Fallible operations
return `Option`/`Except`.  The model/chat transport is an oracle
`Nat → CallOutcome` giving, per attempt, either a transport failure or
a reply (raw text plus usage metadata); the async validator is an
attempt-indexed function, which generalises an arbitrary (possibly
stateful) caller-supplied validator.
-/

/-- JSON values as produced by `JSON.parse`.  A number keeps the exact
literal that was consumed; object fields keep their textual order. -/
inductive Json where
  | null : Json
  | bool (b : Bool) : Json
  | num (lit : List Char) : Json
  | str (s : List Char) : Json
  | arr (items : List Json) : Json
  | obj (fields : List (List Char × Json)) : Json

mutual

/-- Boolean structural equality on `Json` (deep equality). -/
def jeq : Json → Json → Bool
  | .null, .null => true
  | .bool a, .bool b => a = b
  | .num a, .num b => a = b
  | .str a, .str b => a = b
  | .arr a, .arr b => jeqList a b
  | .obj a, .obj b => jeqFields a b
  | _, _ => false

/-- Deep equality on JSON arrays. -/
def jeqList : List Json → List Json → Bool
  | [], [] => true
  | a :: as, b :: bs => jeq a b && jeqList as bs
  | _, _ => false

/-- Deep equality on JSON object field lists. -/
def jeqFields : List (List Char × Json) → List (List Char × Json) → Bool
  | [], [] => true
  | (k, v) :: as, (k2, v2) :: bs => k = k2 && jeq v v2 && jeqFields as bs
  | _, _ => false

end

mutual

theorem jeq_iff : ∀ a b, jeq a b = true ↔ a = b
  | .null, .null => by simp [jeq]
  | .bool a, .bool b => by simp [jeq]
  | .num a, .num b => by simp [jeq]
  | .str a, .str b => by simp [jeq]
  | .arr a, .arr b => by simp [jeq, jeqList_iff a b]
  | .obj a, .obj b => by simp [jeq, jeqFields_iff a b]
  | .null, .bool _ | .null, .num _ | .null, .str _ | .null, .arr _ | .null, .obj _ => by simp [jeq]
  | .bool _, .null | .bool _, .num _ | .bool _, .str _ | .bool _, .arr _ | .bool _, .obj _ => by simp [jeq]
  | .num _, .null | .num _, .bool _ | .num _, .str _ | .num _, .arr _ | .num _, .obj _ => by simp [jeq]
  | .str _, .null | .str _, .bool _ | .str _, .num _ | .str _, .arr _ | .str _, .obj _ => by simp [jeq]
  | .arr _, .null | .arr _, .bool _ | .arr _, .num _ | .arr _, .str _ | .arr _, .obj _ => by simp [jeq]
  | .obj _, .null | .obj _, .bool _ | .obj _, .num _ | .obj _, .str _ | .obj _, .arr _ => by simp [jeq]

theorem jeqList_iff : ∀ a b, jeqList a b = true ↔ a = b
  | [], [] => by simp [jeqList]
  | a :: as, b :: bs => by simp [jeqList, jeq_iff a b, jeqList_iff as bs]
  | [], _ :: _ => by simp [jeqList]
  | _ :: _, [] => by simp [jeqList]

theorem jeqFields_iff : ∀ a b, jeqFields a b = true ↔ a = b
  | [], [] => by simp [jeqFields]
  | (k, v) :: as, (k2, v2) :: bs => by
      simp [jeqFields, jeq_iff v v2, jeqFields_iff as bs, and_assoc]
  | [], _ :: _ => by simp [jeqFields]
  | _ :: _, [] => by simp [jeqFields]

end

instance : DecidableEq Json := fun a b =>
  decidable_of_iff (jeq a b = true) (jeq_iff a b)

/-! ## Character classes and whitespace stripping -/

/-- The four JSON whitespace characters (the only ones `JSON.parse`
skips around tokens). -/
def isJsonWs (c : Char) : Bool :=
  c = ' ' || c = '\t' || c = '\n' || c = '\r'

/-- The characters removed by JavaScript `String.prototype.trim`
(ECMAScript WhiteSpace and LineTerminator); a superset of the JSON
whitespace set. -/
def isJsWsChar (c : Char) : Bool :=
  c = ' ' || c = '\t' || c = '\n' || c = '\r' ||
  c.toNat = 11 || c.toNat = 12 || c.toNat = 160 || c.toNat = 0x1680 ||
  (0x2000 ≤ c.toNat && c.toNat ≤ 0x200A) ||
  c.toNat = 0x2028 || c.toNat = 0x2029 || c.toNat = 0x202F ||
  c.toNat = 0x205F || c.toNat = 0x3000 || c.toNat = 0xFEFF

theorem isJsonWs_isJsWsChar {c : Char} (h : isJsonWs c = true) :
    isJsWsChar c = true := by
  simp only [isJsonWs, Bool.or_eq_true, decide_eq_true_eq, or_assoc] at h
  rcases h with h | h | h | h <;> subst h <;> decide

/-- ASCII decimal digit. -/
def isDigit (c : Char) : Bool := '0' ≤ c && c ≤ '9'

theorem isDigit_not_jsWs {c : Char} (h : isDigit c = true) :
    isJsWsChar c = false := by
  cases hw : isJsWsChar c
  · rfl
  · exfalso
    simp only [isDigit, Bool.and_eq_true, decide_eq_true_eq] at h
    obtain ⟨h1, h2⟩ := h
    have h1' : (48 : Nat) ≤ c.toNat := h1
    have h2' : c.toNat ≤ 57 := h2
    simp only [isJsWsChar, Bool.or_eq_true, decide_eq_true_eq,
      Bool.and_eq_true, or_assoc] at hw
    rcases hw with hw | hw | hw | hw | hw | hw | hw | hw | hw | hw | hw | hw | hw | hw | hw <;>
      first
        | (subst hw; revert h1'; decide)
        | omega

/-- Strip a whitespace class from the front of a string. -/
def stripL (p : Char → Bool) (s : List Char) : List Char := s.dropWhile p

/-- Strip a whitespace class from the end of a string. -/
def stripR (p : Char → Bool) (s : List Char) : List Char :=
  (s.reverse.dropWhile p).reverse

/-- Strip a whitespace class from both ends of a string. -/
def stripBoth (p : Char → Bool) (s : List Char) : List Char :=
  stripR p (stripL p s)

/-- Model of JavaScript `String.prototype.trim`. -/
def jsTrim (s : List Char) : List Char := stripBoth isJsWsChar s

/-! ## A faithful model of `JSON.parse`

`pstep` is a fuel-indexed recursive-descent parser for the json.org
grammar: a value parse is dispatched on the first character; arrays and
objects are parsed by tail modes that consume `, element`/`, "key":
value` groups until the closing bracket.  Whitespace is skipped exactly
where the JSON grammar allows it (`isJsonWs` only).  Since every
recursive call consumes at least one character first, fuel
`length + 1` always suffices. -/

/-- Value of a hexadecimal digit. -/
def hexVal (c : Char) : Option Nat :=
  if '0' ≤ c && c ≤ '9' then some (c.toNat - 48)
  else if 'a' ≤ c && c ≤ 'f' then some (c.toNat - 87)
  else if 'A' ≤ c && c ≤ 'F' then some (c.toNat - 55)
  else none

/-- Decoding of a single-character JSON string escape. -/
def escChar (e : Char) : Option Char :=
  if e = '"' then some '"'
  else if e = '\\' then some '\\'
  else if e = '/' then some '/'
  else if e = 'b' then some (Char.ofNat 8)
  else if e = 'f' then some (Char.ofNat 12)
  else if e = 'n' then some '\n'
  else if e = 'r' then some '\r'
  else if e = 't' then some '\t'
  else none

/-- Parse the body of a JSON string (the opening quote has already been
consumed); returns the decoded characters and the rest of the input
after the closing quote.  Raw control characters and unknown escapes
are rejected, as by `JSON.parse`. -/
def pstringBody : Nat → List Char → Option (List Char × List Char)
  | 0, _ => none
  | _ + 1, [] => none
  | fuel + 1, c :: rest =>
    if c = '"' then some ([], rest)
    else if c = '\\' then
      match rest with
      | [] => none
      | e :: rest2 =>
        match escChar e with
        | some d => (pstringBody fuel rest2).map (fun p => (d :: p.1, p.2))
        | none =>
          if e = 'u' then
            match rest2 with
            | h1 :: h2 :: h3 :: h4 :: rest6 =>
              match hexVal h1, hexVal h2, hexVal h3, hexVal h4 with
              | some a, some b, some c2, some d =>
                (pstringBody fuel rest6).map
                  (fun p => (Char.ofNat (((a * 16 + b) * 16 + c2) * 16 + d) :: p.1, p.2))
              | _, _, _, _ => none
            | _ => none
          else none
    else if c.toNat < 32 then none
    else (pstringBody fuel rest).map (fun p => (c :: p.1, p.2))

/-- Split off a (possibly empty) run of decimal digits. -/
def digitSpan (s : List Char) : List Char × List Char :=
  (s.takeWhile isDigit, s.dropWhile isDigit)

/-- Optional sign of an exponent part. -/
def pnumSign (r : List Char) : List Char × List Char :=
  match r with
  | c :: r2 => if c = '+' || c = '-' then ([c], r2) else ([], c :: r2)
  | [] => ([], [])

/-- Optional exponent part of a JSON number literal. -/
def pnumTailExp (lit : List Char) (s : List Char) : Option (List Char × List Char) :=
  match s with
  | c :: r =>
    if c = 'e' || c = 'E' then
      if (digitSpan (pnumSign r).2).1 = [] then none
      else some (lit ++ c :: (pnumSign r).1 ++ (digitSpan (pnumSign r).2).1,
                 (digitSpan (pnumSign r).2).2)
    else some (lit, c :: r)
  | [] => some (lit, [])

/-- Optional fraction part of a JSON number literal. -/
def pnumFrac (lit : List Char) (s : List Char) : Option (List Char × List Char) :=
  match s with
  | c :: r =>
    if c = '.' then
      if (digitSpan r).1 = [] then none
      else pnumTailExp (lit ++ '.' :: (digitSpan r).1) (digitSpan r).2
    else pnumTailExp lit (c :: r)
  | [] => pnumTailExp lit []

/-- Integer part of a JSON number literal: `0` or a nonzero digit
followed by a digit run (leading zeros are rejected by the grammar). -/
def pnumInt (pre : List Char) (s : List Char) : Option (List Char × List Char) :=
  match s with
  | c :: r =>
    if c = '0' then pnumFrac (pre ++ ['0']) r
    else if isDigit c then pnumFrac (pre ++ c :: (digitSpan r).1) (digitSpan r).2
    else none
  | [] => none

/-- Parse a JSON number literal (returned verbatim) from the front of
the input. -/
def pnum (s : List Char) : Option (List Char × List Char) :=
  match s with
  | c :: r => if c = '-' then pnumInt ['-'] r else pnumInt [] (c :: r)
  | [] => none

/-- Skip JSON whitespace. -/
def skipWs (s : List Char) : List Char := s.dropWhile isJsonWs

/-- Parser modes: a value, or the tail of an array/object after the
first element/field group. -/
inductive PIn where
  | val (s : List Char) : PIn
  | arrTail (acc : List Json) (s : List Char) : PIn
  | objEntry (acc : List (List Char × Json)) (s : List Char) : PIn
  | objTail (acc : List (List Char × Json)) (s : List Char) : PIn

/-- The input string of a parser mode. -/
def PIn.src : PIn → List Char
  | .val s => s
  | .arrTail _ s => s
  | .objEntry _ s => s
  | .objTail _ s => s

/-- One fuel-indexed step of the recursive-descent JSON parser. -/
def pstep : Nat → PIn → Option (Json × List Char)
  | 0, _ => none
  | _ + 1, .val [] => none
  | fuel + 1, .val (c :: r) =>
    if c = '{' then
      match skipWs r with
      | c2 :: r2 =>
        if c2 = '}' then some (Json.obj [], r2)
        else pstep fuel (.objEntry [] (c2 :: r2))
      | [] => pstep fuel (.objEntry [] [])
    else if c = '[' then
      match skipWs r with
      | c2 :: r2 =>
        if c2 = ']' then some (Json.arr [], r2)
        else
          match pstep fuel (.val (c2 :: r2)) with
          | some (v, r3) => pstep fuel (.arrTail [v] r3)
          | none => none
      | [] => none
    else if c = '"' then
      (pstringBody (r.length + 1) r).map (fun p => (Json.str p.1, p.2))
    else if c = 't' then
      match r with
      | c1 :: c2 :: c3 :: rest =>
        if c1 = 'r' && c2 = 'u' && c3 = 'e' then some (Json.bool true, rest) else none
      | _ => none
    else if c = 'f' then
      match r with
      | c1 :: c2 :: c3 :: c4 :: rest =>
        if c1 = 'a' && c2 = 'l' && c3 = 's' && c4 = 'e' then some (Json.bool false, rest)
        else none
      | _ => none
    else if c = 'n' then
      match r with
      | c1 :: c2 :: c3 :: rest =>
        if c1 = 'u' && c2 = 'l' && c3 = 'l' then some (Json.null, rest) else none
      | _ => none
    else if c = '-' || isDigit c then
      (pnum (c :: r)).map (fun p => (Json.num p.1, p.2))
    else none
  | fuel + 1, .arrTail acc s =>
    match skipWs s with
    | c :: r =>
      if c = ',' then
        match pstep fuel (.val (skipWs r)) with
        | some (v, r2) => pstep fuel (.arrTail (acc ++ [v]) r2)
        | none => none
      else if c = ']' then some (Json.arr acc, r)
      else none
    | [] => none
  | fuel + 1, .objEntry acc s =>
    match s with
    | c :: r =>
      if c = '"' then
        match pstringBody (r.length + 1) r with
        | some (k, r2) =>
          match skipWs r2 with
          | c2 :: r3 =>
            if c2 = ':' then
              match pstep fuel (.val (skipWs r3)) with
              | some (v, r4) => pstep fuel (.objTail (acc ++ [(k, v)]) r4)
              | none => none
            else none
          | [] => none
        | none => none
      else none
    | [] => none
  | fuel + 1, .objTail acc s =>
    match skipWs s with
    | c :: r =>
      if c = ',' then pstep fuel (.objEntry acc (skipWs r))
      else if c = '}' then some (Json.obj acc, r)
      else none
    | [] => none

/-- Parse a whole string as exactly one JSON value (no leftover). -/
def pvExact (s : List Char) : Option Json :=
  match pstep (s.length + 1) (.val s) with
  | some (v, []) => some v
  | _ => none

/-- Model of `JSON.parse`: JSON whitespace may surround a single JSON
value; anything else is a parse error (`none`). -/
def jsonParse (t : List Char) : Option Json :=
  pvExact (stripBoth isJsonWs t)

/-! ## JSON.stringify, truthiness, property access -/

/-- Indentation: `n` spaces. -/
def spaces (n : Nat) : List Char := List.replicate n ' '

/-- Escape one character inside a JSON string literal. -/
def escOut (c : Char) : List Char :=
  if c = '"' then ['\\', '"']
  else if c = '\\' then ['\\', '\\']
  else if c = '\n' then ['\\', 'n']
  else if c = '\r' then ['\\', 'r']
  else if c = '\t' then ['\\', 't']
  else if c.toNat = 8 then ['\\', 'b']
  else if c.toNat = 12 then ['\\', 'f']
  else if c.toNat < 32 then
    ['\\', 'u', '0', '0',
      Char.ofNat (if c.toNat / 16 < 10 then 48 + c.toNat / 16 else 87 + c.toNat / 16),
      Char.ofNat (if c.toNat % 16 < 10 then 48 + c.toNat % 16 else 87 + c.toNat % 16)]
  else [c]

/-- Serialize a string as a JSON string literal. -/
def quoteStr (s : List Char) : List Char :=
  '"' :: (s.flatMap escOut) ++ ['"']

/-- Join with a separator. -/
def joinSep (sep : List Char) : List (List Char) → List Char
  | [] => []
  | [x] => x
  | x :: y :: xs => x ++ sep ++ joinSep sep (y :: xs)

mutual

/-- Model of `JSON.stringify(value, null, 2)` (two-space pretty
printing): the serialization used when the orchestrator serializes an
object payload and when `rebuild` embeds the failing value in its
feedback prompt.  `ind` is the indentation depth of the surrounding
container. -/
def stringifyGo : Nat → Json → List Char
  | _, .null => "null".toList
  | _, .bool true => "true".toList
  | _, .bool false => "false".toList
  | _, .num lit => lit
  | _, .str s => quoteStr s
  | _, .arr [] => ['[', ']']
  | ind, .arr (x :: xs) =>
    '[' :: '\n' ::
      joinSep (",\n".toList) (stringifyItems (ind + 2) (x :: xs)) ++
      '\n' :: spaces ind ++ [']']
  | _, .obj [] => ['{', '}']
  | ind, .obj (f :: fs) =>
    '{' :: '\n' ::
      joinSep (",\n".toList) (stringifyFields (ind + 2) (f :: fs)) ++
      '\n' :: spaces ind ++ ['}']

/-- Array items of the pretty printer, one indented line each. -/
def stringifyItems : Nat → List Json → List (List Char)
  | _, [] => []
  | ind, x :: xs => (spaces ind ++ stringifyGo ind x) :: stringifyItems ind xs

/-- Object fields of the pretty printer, one indented line each. -/
def stringifyFields : Nat → List (List Char × Json) → List (List Char)
  | _, [] => []
  | ind, (k, v) :: fs =>
    (spaces ind ++ quoteStr k ++ ':' :: ' ' :: stringifyGo ind v) :: stringifyFields ind fs

end

/-- Model of `JSON.stringify(value, null, 2)`. -/
def stringify2 (j : Json) : List Char := stringifyGo 0 j

/-- Is the mantissa of a JSON number literal zero (`0`, `-0`, `0.00`,
`0e9`, ...)?  Used for JavaScript number truthiness. -/
def numIsZero (lit : List Char) : Bool :=
  ((lit.takeWhile (fun c => !(c = 'e' || c = 'E'))).filter isDigit).all (· = '0')

/-- JavaScript truthiness of a JSON value. -/
def jsTruthy : Json → Bool
  | .null => false
  | .bool b => b
  | .num lit => !numIsZero lit
  | .str s => !(s.isEmpty)
  | .arr _ => true
  | .obj _ => true

/-- JavaScript property read on a parsed JSON object: with duplicate
keys, the last occurrence wins (as after `JSON.parse`). -/
def objGet (fields : List (List Char × Json)) (key : List Char) : Option Json :=
  (fields.reverse.find? (fun f => f.1 = key)).map (·.2)

/-- Is the value a JSON object or array? -/
def isObjArr : Json → Bool
  | .obj _ => true
  | .arr _ => true
  | _ => false

/-- Model of the `isJSONStr` helper: `JSON.parse` succeeds and the
result is an object or an array. -/
def isJSONStr (s : List Char) : Bool :=
  match jsonParse s with
  | some v => isObjArr v
  | none => false

/-! ## The Response Parser strategy chain (`extractJSON`) -/

/-- The backtick character. -/
def btick : Char := Char.ofNat 96

/-- A code-fence marker. -/
def fenceStr : List Char := [btick, btick, btick]

/-- ASCII lowercasing, for the regexes' `i` flag. -/
def lowerC (c : Char) : Char :=
  if 'A' ≤ c && c ≤ 'Z' then Char.ofNat (c.toNat + 32) else c

/-- Consume a literal pattern case-insensitively; returns the rest. -/
def eatCI : List Char → List Char → Option (List Char)
  | [], s => some s
  | _ :: _, [] => none
  | p :: ps, c :: cs => if lowerC c = lowerC p then eatCI ps cs else none

/-- First position where the pattern occurs case-insensitively. -/
def posOfSubCI (pat : List Char) : List Char → Option Nat
  | [] => if pat = [] then some 0 else none
  | c :: r =>
    if (eatCI pat (c :: r)).isSome then some 0
    else (posOfSubCI pat r).map (· + 1)

/-- First index of a character. -/
def posOfChar (a : Char) (s : List Char) : Option Nat := s.findIdx? (· = a)

/-- Last index of a character. -/
def lastPosOfChar (z : Char) (s : List Char) : Option Nat :=
  (s.reverse.findIdx? (· = z)).map (fun m => s.length - 1 - m)

/-- All full matches of the code-fence regexes
(strategy 2): a fence opener (```` ```json ```` when `tagged`, plain
```` ``` ```` otherwise) up to the earliest following ```` ``` ````
(lazy body), scanning left to right as a global regex does. -/
def findFenceBlocks (tagged : Bool) : Nat → List Char → List (List Char)
  | 0, _ => []
  | fuel + 1, s =>
    let openPat := if tagged then fenceStr ++ ("json".toList) else fenceStr
    match posOfSubCI openPat s with
    | none => []
    | some i =>
      let after := (s.drop i).drop openPat.length
      match posOfSubCI fenceStr after with
      | none => []
      | some j =>
        ((s.drop i).take (openPat.length + j + 3)) ::
          findFenceBlocks tagged fuel (after.drop (j + 3))

/-- Remove every occurrence of a fence marker followed by whitespace
(the `replace(/```json\s*\n?/gi, '')` / `replace(/```\s*\n?/gi, '')`
steps applied to a matched block). -/
def stripMarker (tagged : Bool) : Nat → List Char → List Char
  | 0, s => s
  | fuel + 1, s =>
    let pat := if tagged then fenceStr ++ ("json".toList) else fenceStr
    match posOfSubCI pat s with
    | none => s
    | some i =>
      (s.take i) ++ stripMarker tagged fuel (((s.drop i).drop pat.length).dropWhile isJsWsChar)

/-- The fence markers stripped from a matched block, then trimmed. -/
def stripFence (m : List Char) : List Char :=
  jsTrim (stripMarker false (m.length + 1) (stripMarker true (m.length + 1) m))

/-- One strategy probe: parse if `isJSONStr` accepts the candidate. -/
def strategyParse (c : List Char) : Option Json :=
  if isJSONStr c then jsonParse c else none

/-- First candidate accepted by `strategyParse`. -/
def firstStrategyParse : List (List Char) → Option Json
  | [] => none
  | c :: cs =>
    match strategyParse c with
    | some v => some v
    | none => firstStrategyParse cs

/-- Strategy 2: fenced code blocks, tagged pattern first. -/
def tryFenced (text : List Char) : Option Json :=
  match firstStrategyParse ((findFenceBlocks true (text.length + 1) text).map stripFence) with
  | some v => some v
  | none => firstStrategyParse ((findFenceBlocks false (text.length + 1) text).map stripFence)

/-- All matches of a greedy bracket regex (`/\{[\s\S]*\}/g` or
`/\[[\s\S]*\]/g`): from each search position, the span from the first
opener to the last closer, then continue after it. -/
def greedyMatches (a z : Char) : Nat → List Char → List (List Char)
  | 0, _ => []
  | fuel + 1, s =>
    match posOfChar a s with
    | none => []
    | some i =>
      let post := s.drop i
      match lastPosOfChar z post with
      | none => []
      | some k =>
        if k = 0 then []
        else (post.take (k + 1)) :: greedyMatches a z fuel (post.drop (k + 1))

/-- Strategy 3: greedy bracket regexes, object pattern first; each
match is trimmed before the parse test. -/
def tryGreedy (text : List Char) : Option Json :=
  match firstStrategyParse ((greedyMatches '{' '}' (text.length + 1) text).map jsTrim) with
  | some v => some v
  | none => firstStrategyParse ((greedyMatches '[' ']' (text.length + 1) text).map jsTrim)

/-- The scan loop of `extractCompleteStructure`: depth/in-string/escape
tracking; returns the length of the complete structure when depth
returns to zero. -/
def ecsLoop : List Char → Char → Char → Nat → Bool → Bool → Nat → Option Nat
  | [], _, _, _, _, _, _ => none
  | c :: rest, sc, ec, depth, inStr, esc, pos =>
    if esc then ecsLoop rest sc ec depth inStr false (pos + 1)
    else if c = '\\' && inStr then ecsLoop rest sc ec depth inStr true (pos + 1)
    else if c = '"' then ecsLoop rest sc ec depth (!inStr) false (pos + 1)
    else if !inStr && c = sc then ecsLoop rest sc ec (depth + 1) inStr false (pos + 1)
    else if !inStr && c = ec then
      if depth = 1 then some (pos + 1)
      else ecsLoop rest sc ec (depth - 1) inStr false (pos + 1)
    else ecsLoop rest sc ec depth inStr false (pos + 1)

/-- Model of `extractCompleteStructure(text, startPos)`. -/
def extractCompleteStructure (text : List Char) (startPos : Nat) : Option (List Char) :=
  let sub := text.drop startPos
  match sub with
  | [] => none
  | sc :: _ =>
    let ec := if sc = '{' then '}' else ']'
    (ecsLoop sub sc ec 0 false false 0).map (fun e => sub.take e)

/-- Model of `findCompleteJSONStructures(text)` (strategy 4): a
candidate for every `{`/`[` position whose balanced span completes. -/
def findCompleteJSONStructures (text : List Char) : List (List Char) :=
  (List.range text.length).filterMap (fun i =>
    let c := (text.drop i).headD ' '
    if c = '{' || c = '[' then extractCompleteStructure text i else none)

/-- At least one whitespace character (`\s+` in the intro regexes). -/
def ws1 (s : List Char) : Option (List Char) :=
  match s with
  | c :: _ => if isJsWsChar c then some (s.dropWhile isJsWsChar) else none
  | [] => none

/-- Lazy scan `.*?[:\n]`: consume up to and including the first `:` or
newline (`.` does not cross newlines, but `[:\n]` may consume one). -/
def uptoColonNl : List Char → Option (List Char)
  | [] => none
  | c :: r => if c = ':' || c = '\n' then some r else uptoColonNl r

/-- Match of `/^\s*Sure,?\s*here\s+is\s+your?\s+.*?[:\n]/gi` at the
start of the text; returns the text after the matched portion. -/
def intro1Match (t0 : List Char) : Option (List Char) := do
  let t1 := t0.dropWhile isJsWsChar
  let t2 ← eatCI ("sure".toList) t1
  let t3 := match t2 with | ',' :: r => r | _ => t2
  let t4 := t3.dropWhile isJsWsChar
  let t5 ← eatCI ("here".toList) t4
  let t6 ← ws1 t5
  let t7 ← eatCI ("is".toList) t6
  let t8 ← ws1 t7
  let t9 ← eatCI ("you".toList) t8
  let t10 := match t9 with | 'r' :: r => r | 'R' :: r => r | _ => t9
  let t11 ← ws1 t10
  uptoColonNl t11

/-- Match of `/^\s*Here\s+is\s+the\s+.*?[:\n]/gi` at the start. -/
def intro2Match (t0 : List Char) : Option (List Char) := do
  let t1 := t0.dropWhile isJsWsChar
  let t2 ← eatCI ("here".toList) t1
  let t3 ← ws1 t2
  let t4 ← eatCI ("is".toList) t3
  let t5 ← ws1 t4
  let t6 ← eatCI ("the".toList) t5
  let t7 ← ws1 t6
  uptoColonNl t7

/-- Lazy scan for `.*?is\s*[:\n]`: find the earliest `is` (on the
first line) after which whitespace and then `:`/newline complete the
match; the whitespace run gives back a trailing newline for `[:\n]`
when no colon follows. -/
def uptoIsColon : List Char → Option (List Char)
  | [] => none
  | c :: r =>
    match eatCI ("is".toList) (c :: r) with
    | some t =>
      let w := t.takeWhile isJsWsChar
      let u := t.dropWhile isJsWsChar
      match u with
      | ':' :: u2 => some u2
      | _ =>
        match (w.reverse.findIdx? (· = '\n')) with
        | some m => some ((w.drop (w.length - m)) ++ u)
        | none => if c = '\n' then none else uptoIsColon r
    | none => if c = '\n' then none else uptoIsColon r

/-- Match of `/^\s*The\s+.*?is\s*[:\n]/gi` at the start. -/
def intro3Match (t0 : List Char) : Option (List Char) := do
  let t1 := t0.dropWhile isJsWsChar
  let t2 ← eatCI ("the".toList) t1
  let t3 ← ws1 t2
  uptoIsColon t3

/-- Apply an anchored intro-removal regex. -/
def removeIntro (m : List Char → Option (List Char)) (t : List Char) : List Char :=
  match m t with
  | some rest => rest
  | none => t

/-- Remove every lazy `/* ... */` block (`/\/\*[\s\S]*?\*\//g`). -/
def stripBlockComments : Nat → List Char → List Char
  | 0, s => s
  | fuel + 1, s =>
    match posOfSubCI ("/*".toList) s with
    | none => s
    | some i =>
      let after := (s.drop i).drop 2
      match posOfSubCI ("*/".toList) after with
      | none => s
      | some j => (s.take i) ++ stripBlockComments fuel (after.drop (j + 2))

/-- Remove `//` to end of line, every line (`/\/\/.*$/gm`); the line
terminator itself is kept. -/
def stripLineComments : Nat → List Char → List Char
  | 0, s => s
  | fuel + 1, s =>
    match posOfSubCI ("//".toList) s with
    | none => s
    | some i =>
      (s.take i) ++ stripLineComments fuel ((s.drop i).dropWhile (· ≠ '\n'))

/-- Strategy 5: the cleaned-up text (conversational intros and
comments removed, then trimmed). -/
def cleanupText (text : List Char) : List Char :=
  jsTrim (stripLineComments (text.length + 1)
    (stripBlockComments (text.length + 1)
      (removeIntro intro3Match (removeIntro intro2Match (removeIntro intro1Match text)))))

/-! ## Truncation recovery (`attemptJSONRecovery`) -/

/-- The bracket/brace/in-string balance of a text, as counted by the
recovery scanner (a backslash marks the next character as escaped even
outside strings, exactly as in the source). -/
structure Bal where
  braces : Int
  brackets : Int
  inString : Bool

/-- The balance-counting loop of `attemptJSONRecovery`. -/
def countBalAux : List Char → Int → Int → Bool → Bool → Bal
  | [], br, bk, inS, _ => ⟨br, bk, inS⟩
  | c :: r, br, bk, inS, esc =>
    if esc then countBalAux r br bk inS false
    else if c = '\\' then countBalAux r br bk inS true
    else if c = '"' then countBalAux r br bk (!inS) false
    else if !inS && c = '{' then countBalAux r (br + 1) bk inS false
    else if !inS && c = '}' then countBalAux r (br - 1) bk inS false
    else if !inS && c = '[' then countBalAux r br (bk + 1) inS false
    else if !inS && c = ']' then countBalAux r br (bk - 1) inS false
    else countBalAux r br bk inS false

/-- Balance of a whole text. -/
def countBal (s : List Char) : Bal := countBalAux s 0 0 false false

/-- The close-and-append fix: close an open string, then append all
missing `}` (first) and all missing `]` (second) — the source appends
the braces before the brackets, by type, not in nesting order. -/
def addClosers (w : List Char) (b : Bal) : List Char :=
  (if b.inString then w ++ ['"'] else w) ++
    List.replicate b.braces.toNat '}' ++ List.replicate b.brackets.toNat ']'

/-- The progressive-trim loop of `attemptJSONRecovery` (second
attempt): drop one character from the end, re-count the balance, parse
when balanced, and after more than 5 trims also try the
close-and-append variant. -/
def recoveryLoop : Nat → Nat → List Char → Option Json
  | _, 0, _ => none
  | i, rem + 1, w =>
    if w.length > 2 then
      let w2 := w.dropLast
      let b := countBal w2
      match
        (if b.braces = 0 && b.brackets = 0 && !b.inString then jsonParse w2 else none) with
      | some v => some v
      | none =>
        match (if 5 < i then jsonParse (addClosers w2 b) else none) with
        | some v => some v
        | none => recoveryLoop (i + 1) rem w2
    else none

/-- Model of `attemptJSONRecovery(text, maxAttempts)`.  The JavaScript
function returns `null` both on failure and when a parse produces the
value `null`; the model keeps the distinction (`none` vs
`some Json.null`) and the caller `extractJSON` collapses it exactly as
the `!== null` check does. -/
def attemptJSONRecovery (text : List Char) (maxAttempts : Nat) : Option Json :=
  if text.isEmpty then none
  else
    match jsonParse text with
    | some v => some v
    | none =>
      let w := jsTrim text
      let b := countBal w
      match
        (if (0 < b.braces || 0 < b.brackets || b.inString) && 2 < w.length then
          jsonParse (addClosers w b)
        else none) with
      | some v => some v
      | none => recoveryLoop 0 maxAttempts w

/-! ## `extractJSON`: the full strategy chain -/

/-- Error message for empty input to `extractJSON`. -/
def noTextMsg : List Char := "No text provided for JSON extraction".toList

/-- Error message with a bounded preview of the original text. -/
def previewMsg (text : List Char) : List Char :=
  ("Could not extract valid JSON from model response. Response preview: ".toList) ++
    text.take 200 ++ ("...".toList)

/-- Model of `extractJSON(text)`: the six-strategy chain.  A `null`
produced by truncation recovery is indistinguishable from recovery
failure in the source (`recoveredJSON !== null`), so it falls through
to the error. -/
def extractJSON (text : List Char) : Except (List Char) Json :=
  if text.isEmpty then .error noTextMsg
  else
    match (if isJSONStr (jsTrim text) then jsonParse (jsTrim text) else none) with
    | some v => .ok v
    | none =>
      match tryFenced text with
      | some v => .ok v
      | none =>
        match tryGreedy text with
        | some v => .ok v
        | none =>
          match firstStrategyParse (findCompleteJSONStructures text) with
          | some v => .ok v
          | none =>
            match strategyParse (cleanupText text) with
            | some v => .ok v
            | none =>
              match attemptJSONRecovery text 100 with
              | some v => if v = Json.null then .error (previewMsg text) else .ok v
              | none => .error (previewMsg text)

/-! ## Envelope unwrapping and the orchestrator data model -/

/-- Envelope unwrapping as written in `rawMessage`
(`if (extractedJSON?.data) return extractedJSON.data; return extractedJSON`):
keyed on JavaScript truthiness of the `data` field, with optional
chaining returning `undefined` (falsy) for non-objects. -/
def unwrapData (j : Json) : Json :=
  match j with
  | .obj fields =>
    match objGet fields ("data".toList) with
    | some d => if jsTruthy d then d else j
    | none => j
  | _ => j

/-- Envelope unwrapping as written in `statelessMessage`
(`extractedJSON?.data ? extractedJSON.data : extractedJSON`). -/
def unwrapDataStateless (j : Json) : Json :=
  match j with
  | .obj fields =>
    match objGet fields ("data".toList) with
    | some d => if jsTruthy d then d else j
    | none => j
  | _ => j

/-- Per-attempt token usage as reported in `usageMetadata`. -/
structure Usage where
  promptTokens : Nat
  responseTokens : Nat
  totalTokens : Nat
deriving DecidableEq

/-- The `lastResponseMetadata` snapshot captured after each model
call. -/
structure Meta where
  modelVersion : Option (List Char)
  requestedModel : List Char
  promptTokens : Nat
  responseTokens : Nat
  totalTokens : Nat
  timestamp : Nat
deriving DecidableEq

/-- The `_cumulativeUsage` accumulator. -/
structure CumUsage where
  promptTokens : Nat
  responseTokens : Nat
  totalTokens : Nat
  attempts : Nat
deriving DecidableEq

/-- The zero accumulator the orchestrator resets to. -/
def zeroCum : CumUsage := ⟨0, 0, 0, 0⟩

/-- A successful reply from the chat transport: raw text, optional
usage metadata, optional model version. -/
structure ModelReply where
  text : List Char
  usageMeta : Option Usage
  modelVersion : Option (List Char)
deriving DecidableEq

/-- Outcome of one `chat.sendMessage` call: a transport error (the
promise rejected) or a reply. -/
inductive CallOutcome where
  | fail (msg : List Char) : CallOutcome
  | reply (r : ModelReply) : CallOutcome
deriving DecidableEq

/-- Building `lastResponseMetadata` from a reply
(`result.usageMetadata?.promptTokenCount || 0` and friends). -/
def metaOf (modelName : List Char) (now : Nat) (r : ModelReply) : Meta :=
  { modelVersion := r.modelVersion
    requestedModel := modelName
    promptTokens := ((r.usageMeta.map Usage.promptTokens).getD 0)
    responseTokens := ((r.usageMeta.map Usage.responseTokens).getD 0)
    totalTokens := ((r.usageMeta.map Usage.totalTokens).getD 0)
    timestamp := now }

/-- Does a message contain the marker `extractJSON` failures start
with?  (`error.message.includes("Could not extract valid JSON")`). -/
def isExtractFailMsg (msg : List Char) : Bool :=
  (posOfSubCI ("Could not extract valid JSON".toList) msg).isSome

/-- The error wrapping in `rawMessage`'s catch block. -/
def wrapRawErr (onlyJSON : Bool) (msg : List Char) : List Char :=
  if onlyJSON && isExtractFailMsg msg then
    ("Invalid JSON response from Gemini: ".toList) ++ msg
  else
    ("Transformation failed: ".toList) ++ msg

/-- Model of `rawMessage` (attempt 0 of the loop): send, capture
metadata, run the Response Parser strategy chain, unwrap the envelope.
Returns the metadata update (`none` when the transport call itself
rejected before metadata was captured) and the result. -/
def rawMessageStep (modelName : List Char) (onlyJSON : Bool) (now : Nat)
    (outcome : CallOutcome) : Option Meta × Except (List Char) Json :=
  match outcome with
  | .fail msg => (none, .error (wrapRawErr onlyJSON msg))
  | .reply r =>
    let m := metaOf modelName now r
    match extractJSON r.text with
    | .error emsg => (some m, .error (wrapRawErr onlyJSON emsg))
    | .ok j => (some m, .ok (unwrapData j))

/-- Placeholder for the engine-specific `JSON.parse` exception text
interpolated into the rebuild error message. -/
def parseErrText : List Char := "Unexpected token".toList

/-- Model of `rebuildPayload` (attempts n > 0): send the feedback
prompt, capture metadata, then parse the reply text with bare
`JSON.parse` — no strategy chain and no envelope unwrap. -/
def rebuildStep (modelName : List Char) (now : Nat) (outcome : CallOutcome) :
    Option Meta × Except (List Char) Json :=
  match outcome with
  | .fail msg =>
    (none, .error (("Gemini call failed while repairing payload: ".toList) ++ msg))
  | .reply r =>
    let m := metaOf modelName now r
    match jsonParse r.text with
    | some j => (some m, .ok j)
    | none =>
      (some m,
        .error (("Gemini returned non-JSON while repairing payload: ".toList) ++ parseErrText))

/-- Model of the value pipeline of `statelessMessage`: extract, then
unwrap via the ternary, with no catch around extraction. -/
def statelessValue (r : ModelReply) : Except (List Char) Json :=
  match extractJSON r.text with
  | .error e => .error e
  | .ok j => .ok (unwrapDataStateless j)

/-! ## Payload normalization (`prepareAndValidateMessage`, lines 648-662) -/

/-- JavaScript payload values, classified the way the normalization
chain observes them: an object/array (carrying its JSON
serialization), a string, a boolean, a number (carrying its
`toString()` rendering and whether it is zero, for truthiness), `null`,
`undefined`, or any other value (function, symbol, unserializable
object). -/
inductive JsPayload where
  | jobj (j : Json) : JsPayload
  | jstr (s : List Char) : JsPayload
  | jbool (b : Bool) : JsPayload
  | jnum (isZero : Bool) (render : List Char) : JsPayload
  | jnull : JsPayload
  | jundef : JsPayload
  | jother : JsPayload

/-- The non-retryable invalid-payload error message. -/
def invalidPayloadMsg : List Char :=
  "Invalid source payload. Must be a JSON object or string.".toList

/-- Model of the payload-normalization chain: `sourcePayload &&
isJSON(sourcePayload)` serializes objects/arrays, strings pass through,
booleans and numbers are stringified, `null`/`undefined` become `{}`
(`JSON.stringify({})`), anything else throws. -/
def preparePayload : JsPayload → Except (List Char) (List Char)
  | .jobj j => if isObjArr j then .ok (stringify2 j) else .error invalidPayloadMsg
  | .jstr s => .ok s
  | .jbool b => .ok (if b then "true".toList else "false".toList)
  | .jnum _ render => .ok render
  | .jnull => .ok ['{', '}']
  | .jundef => .ok ['{', '}']
  | .jother => .error invalidPayloadMsg

/-! ## The retry loop -/

/-- `lastPayload` in the loop: the normalized payload string before the
first successful parse, the most recent extracted value afterwards. -/
inductive LastPayload where
  | rawStr (s : List Char) : LastPayload
  | value (j : Json) : LastPayload
deriving DecidableEq

/-- What `rawMessage` sends for a payload
(`typeof sourcePayload === 'string' ? sourcePayload :
JSON.stringify(sourcePayload, null, 2)`); a string value is passed
through unchanged. -/
def lp2text : LastPayload → List Char
  | .rawStr s => s
  | .value (.str s) => s
  | .value j => stringify2 j

/-- The per-call loop state: `lastError`, `lastPayload`, the instance
`lastResponseMetadata`, and the instance `_cumulativeUsage`. -/
structure OState where
  lastError : Option (List Char)
  lastPayload : LastPayload
  meta : Option Meta
  cum : CumUsage
deriving DecidableEq

/-- Which collaborator an attempt called, with its arguments. -/
inductive CallRec where
  | send (payload : List Char) : CallRec
  | rebuildCall (lastPayload : LastPayload) (errMsg : List Char) : CallRec
deriving DecidableEq

instance {m a : Type} [DecidableEq m] [DecidableEq a] : DecidableEq (Except m a) := fun x y =>
  match x, y with
  | .ok v, .ok w => if h : v = w then isTrue (by rw [h]) else isFalse (by simp [h])
  | .error v, .error w => if h : v = w then isTrue (by rw [h]) else isFalse (by simp [h])
  | .ok _, .error _ => isFalse (by simp)
  | .error _, .ok _ => isFalse (by simp)

/-- Trace record of one attempt: its index, the collaborator call, the
value delivered by the parse stage (when it succeeded), the outcome
after validation, and the backoff delay scheduled after it (when it
failed and retries remained). -/
structure AttemptEv where
  idx : Nat
  call : CallRec
  parsed : Option Json
  outcome : Except (List Char) Json
  delayMs : Option Nat
deriving DecidableEq

/-- The per-call environment: config, transport oracle (per attempt),
and validator (attempt-indexed, generalising a stateful async
validator; `none` means the promise resolved, `some m` that it rejected
with message `m`). -/
structure Env where
  modelName : List Char
  onlyJSON : Bool
  oracle : Nat → CallOutcome
  vald : Nat → Json → Option (List Char)
  maxRetries : Nat
  retryDelay : Nat

/-- The collaborator call of attempt `i` (`(attempt === 0) ?
this.rawMessage(...) : this.rebuild(...)`), as a pure function of the
environment: metadata update and parse result. -/
def attCollab (e : Env) (i : Nat) : Option Meta × Except (List Char) Json :=
  if i = 0 then rawMessageStep e.modelName e.onlyJSON i (e.oracle i)
  else rebuildStep e.modelName i (e.oracle i)

/-- One attempt of the loop body (source lines 678-708): call
`rawMessage` (attempt 0) or `rebuild` (later attempts), accumulate
usage if `lastResponseMetadata` is set — which the exception path
skips —, update `lastPayload` before validation, then validate. -/
def attemptStep (e : Env) (attempt : Nat) (st : OState) : CallRec × Option Json ×
    Except (List Char) Json × OState :=
  let call := if attempt = 0 then CallRec.send (lp2text st.lastPayload)
              else CallRec.rebuildCall st.lastPayload (st.lastError.getD [])
  let step := attCollab e attempt
  let st1 := match step.1 with
             | some m => { st with meta := some m }
             | none => st
  match step.2 with
  | .error msg => (call, none, .error msg, st1)
  | .ok v =>
    let st2 := match st1.meta with
               | some m =>
                 { st1 with cum :=
                   { promptTokens := st1.cum.promptTokens + m.promptTokens
                     responseTokens := st1.cum.responseTokens + m.responseTokens
                     totalTokens := st1.cum.totalTokens + m.totalTokens
                     attempts := attempt + 1 } }
               | none => st1
    let st3 := { st2 with lastPayload := .value v }
    match e.vald attempt v with
    | none => (call, some v, .ok v, st3)
    | some vmsg => (call, some v, .error vmsg, st3)

/-- Decimal digits of a natural number (fuel-indexed so that it
reduces). -/
def natCharsAux : Nat → Nat → List Char
  | 0, _ => []
  | fuel + 1, n =>
    if n < 10 then [Char.ofNat (48 + n)]
    else natCharsAux fuel (n / 10) ++ [Char.ofNat (48 + n % 10)]

/-- Decimal rendering of a natural number. -/
def natChars (n : Nat) : List Char := natCharsAux (n + 1) n

/-- The aggregate error thrown when the budget is exhausted:
`Transformation failed after ${maxRetries + 1} attempts.
Last error: ${error.message}`. -/
def aggMsg (maxRetries : Nat) (lastMsg : List Char) : List Char :=
  ("Transformation failed after ".toList) ++ natChars (maxRetries + 1) ++
    (" attempts. Last error: ".toList) ++ lastMsg

/-- Record the caught error in `lastError` (the first statement of the
catch block). -/
def setErr (st : OState) (m : List Char) : OState :=
  { st with lastError := some m }

/-- The retry loop (`for attempt = 0; attempt <= maxRetries`):
`remaining` is `maxRetries - attempt`.  On success return immediately;
on failure record `lastError` and either throw the aggregate error (no
retries left) or schedule the exponential-backoff delay
`retryDelay * 2 ^ attempt` and continue.  Returns the attempt trace,
the final state, and the outcome. -/
def runAttempts (e : Env) : Nat → Nat → OState →
    List AttemptEv × OState × Except (List Char) Json
  | remaining, attempt, st =>
    let s := attemptStep e attempt st
    match s.2.2.1 with
    | .ok v => ([⟨attempt, s.1, s.2.1, .ok v, none⟩], s.2.2.2, .ok v)
    | .error msg =>
      let st2 := setErr s.2.2.2 msg
      match remaining with
      | 0 =>
        ([⟨attempt, s.1, s.2.1, .error msg, none⟩], st2, .error (aggMsg e.maxRetries msg))
      | r + 1 =>
        let d := e.retryDelay * 2 ^ attempt
        let rest := runAttempts e r (attempt + 1) st2
        (⟨attempt, s.1, s.2.1, .error msg, some d⟩ :: rest.1, rest.2.1, rest.2.2)

/-- Per-call overrides (`options.maxRetries ?? this.maxRetries`,
`options.retryDelay ?? this.retryDelay`): nullish coalescing, so an
explicit 0 is honored. -/
def effOption (opt : Option Nat) (inst : Nat) : Nat := opt.getD inst

/-- Model of `prepareAndValidateMessage` = `transform()` =
`message()`: read the per-call retry settings, normalize the payload
(throwing the non-retryable invalid-payload error before any attempt),
reset the cumulative usage accumulator, then run the retry loop. -/
def transform (modelName : List Char) (onlyJSON : Bool)
    (instMaxRetries instRetryDelay : Nat)
    (oracle : Nat → CallOutcome) (vald : Nat → Json → Option (List Char))
    (optMaxRetries optRetryDelay : Option Nat)
    (payload : JsPayload) (meta0 : Option Meta) (cum0 : CumUsage) :
    List AttemptEv × OState × Except (List Char) Json :=
  let mr := effOption optMaxRetries instMaxRetries
  let rd := effOption optRetryDelay instRetryDelay
  match preparePayload payload with
  | .error m => ([], ⟨none, .rawStr [], meta0, cum0⟩, .error m)
  | .ok p =>
    runAttempts ⟨modelName, onlyJSON, oracle, vald, mr, rd⟩ mr 0
      ⟨none, .rawStr p, meta0, zeroCum⟩

/-! ## Constructor defaults (`AITransformFactory`, lines 299-301) -/

/-- The retry options accepted by the constructor. -/
structure CtorOpts where
  maxRetries : Option Nat
  retryDelay : Option Nat

/-- JavaScript `||` with a default: any falsy value (absent or 0)
falls back. -/
def jsOrDefault (v : Option Nat) (d : Nat) : Nat :=
  match v with
  | none => d
  | some n => if n = 0 then d else n

/-- `this.maxRetries = options.maxRetries || 3`. -/
def ctorMaxRetries (o : CtorOpts) : Nat := jsOrDefault o.maxRetries 3

/-- `this.retryDelay = options.retryDelay || 1000`. -/
def ctorRetryDelay (o : CtorOpts) : Nat := jsOrDefault o.retryDelay 1000

/-! ## Parser metatheory

Facts needed to settle the claims about `extractJSON` on valid JSON
input: the parser's leftover is a suffix of its input, and a
successful exact parse starts and ends with a non-whitespace
character; consequently `JSON.parse`-validity survives `trim()`. -/

theorem suffix_of_cons_suffix {a : Char} {l s : List Char}
    (h : (a :: l) <:+ s) : l <:+ s :=
  (List.suffix_cons a l).trans h

theorem skipWs_suffix (s : List Char) : skipWs s <:+ s :=
  List.dropWhile_suffix _

theorem getLast_singleton_suffix {ds : List Char} (u : List Char) (h : ds ≠ []) :
    [ds.getLast h] <:+ u ++ ds := by
  refine ⟨u ++ ds.dropLast, ?_⟩
  rw [List.append_assoc, List.dropLast_append_getLast h]

theorem digit_last_suffix {ds : List Char} (u : List Char) (h : ds ≠ [])
    (hd : ∀ c ∈ ds, isDigit c = true) :
    ∃ c, isDigit c = true ∧ [c] <:+ u ++ ds :=
  ⟨ds.getLast h, hd _ (List.getLast_mem h), getLast_singleton_suffix u h⟩

theorem digitSpan_append (s : List Char) : (digitSpan s).1 ++ (digitSpan s).2 = s :=
  List.takeWhile_append_dropWhile ..

theorem digitSpan_fst_digits (s : List Char) :
    ∀ c ∈ (digitSpan s).1, isDigit c = true :=
  fun _ hc => List.mem_takeWhile_imp hc

theorem digitSpan_snd_suffix (s : List Char) : (digitSpan s).2 <:+ s :=
  List.dropWhile_suffix _

theorem digitSpan_last_of_snd_nil {s : List Char} (hne : (digitSpan s).1 ≠ [])
    (hnil : (digitSpan s).2 = []) :
    ∃ c, isDigit c = true ∧ [c] <:+ s := by
  obtain ⟨c, hc, hs⟩ := digit_last_suffix [] hne (digitSpan_fst_digits s)
  refine ⟨c, hc, ?_⟩
  have := digitSpan_append s
  rw [hnil, List.append_nil] at this
  rwa [List.nil_append, this] at hs

theorem pnumSign_suffix (r : List Char) : (pnumSign r).2 <:+ r := by
  match r with
  | [] => exact List.nil_suffix
  | c :: r2 =>
    simp only [pnumSign]
    split
    · exact List.suffix_cons _ _
    · exact List.suffix_refl _

theorem pnumTailExp_bounds {lit s lit2 r : List Char}
    (h : pnumTailExp lit s = some (lit2, r)) :
    r <:+ s ∧ (r = [] → s = [] ∨ ∃ c, isDigit c = true ∧ [c] <:+ s) := by
  match s with
  | [] =>
    simp only [pnumTailExp, Option.some.injEq, Prod.mk.injEq] at h
    exact ⟨h.2 ▸ List.nil_suffix, fun _ => Or.inl rfl⟩
  | c :: rr =>
    simp only [pnumTailExp] at h
    split at h
    · split at h
      · exact absurd h (by simp)
      · rename_i hds
        simp only [Option.some.injEq, Prod.mk.injEq] at h
        obtain ⟨-, h2⟩ := h
        subst h2
        have hsub : (digitSpan (pnumSign rr).2).2 <:+ c :: rr :=
          ((digitSpan_snd_suffix _).trans (pnumSign_suffix rr)).trans (List.suffix_cons _ _)
        refine ⟨hsub, fun hr => Or.inr ?_⟩
        obtain ⟨d, hd, hsuf⟩ := digitSpan_last_of_snd_nil hds hr
        exact ⟨d, hd, hsuf.trans ((pnumSign_suffix rr).trans (List.suffix_cons _ _))⟩
    · simp only [Option.some.injEq, Prod.mk.injEq] at h
      obtain ⟨-, h2⟩ := h
      subst h2
      exact ⟨List.suffix_refl _, fun hr => by simp at hr⟩

theorem pnumFrac_bounds {lit s lit2 r : List Char}
    (h : pnumFrac lit s = some (lit2, r)) :
    r <:+ s ∧ (r = [] → s = [] ∨ ∃ c, isDigit c = true ∧ [c] <:+ s) := by
  match s with
  | [] =>
    simp only [pnumFrac] at h
    exact pnumTailExp_bounds h
  | c :: rr =>
    simp only [pnumFrac] at h
    split at h
    · split at h
      · exact absurd h (by simp)
      · rename_i hds
        obtain ⟨hsub, hlast⟩ := pnumTailExp_bounds h
        have hchain : (digitSpan rr).2 <:+ c :: rr :=
          (digitSpan_snd_suffix rr).trans (List.suffix_cons _ _)
        refine ⟨hsub.trans hchain, fun hr => Or.inr ?_⟩
        rcases hlast hr with hnil | ⟨d, hd, hsuf⟩
        · obtain ⟨d, hd, hsuf⟩ := digitSpan_last_of_snd_nil hds hnil
          exact ⟨d, hd, hsuf.trans (List.suffix_cons _ _)⟩
        · exact ⟨d, hd, hsuf.trans hchain⟩
    · exact pnumTailExp_bounds h

theorem pnumInt_bounds {pre s lit2 r : List Char}
    (h : pnumInt pre s = some (lit2, r)) :
    r <:+ s ∧ (r = [] → ∃ c, isDigit c = true ∧ [c] <:+ s) := by
  match s with
  | [] => exact absurd h (by simp [pnumInt])
  | c :: rr =>
    simp only [pnumInt] at h
    split at h
    · rename_i hc
      obtain ⟨hsub, hlast⟩ := pnumFrac_bounds h
      refine ⟨hsub.trans (List.suffix_cons _ _), fun hr => ?_⟩
      rcases hlast hr with hnil | ⟨d, hd, hsuf⟩
      · subst hnil
        subst hc
        exact ⟨'0', by decide, List.suffix_refl _⟩
      · exact ⟨d, hd, hsuf.trans (List.suffix_cons _ _)⟩
    · split at h
      · rename_i hdig
        obtain ⟨hsub, hlast⟩ := pnumFrac_bounds h
        have hchain : (digitSpan rr).2 <:+ c :: rr :=
          (digitSpan_snd_suffix rr).trans (List.suffix_cons _ _)
        refine ⟨hsub.trans hchain, fun hr => ?_⟩
        rcases hlast hr with hnil | ⟨d, hd, hsuf⟩
        · by_cases hds : (digitSpan rr).1 = []
          · have := digitSpan_append rr
            rw [hds, hnil, List.nil_append] at this
            subst this
            exact ⟨c, hdig, List.suffix_refl _⟩
          · obtain ⟨d, hd, hsuf⟩ := digitSpan_last_of_snd_nil hds hnil
            exact ⟨d, hd, hsuf.trans (List.suffix_cons _ _)⟩
        · exact ⟨d, hd, hsuf.trans hchain⟩
      · exact absurd h (by simp)

theorem pnum_bounds {s lit2 r : List Char}
    (h : pnum s = some (lit2, r)) :
    r <:+ s ∧ (r = [] → ∃ c, isDigit c = true ∧ [c] <:+ s) := by
  match s with
  | [] => exact absurd h (by simp [pnum])
  | c :: rr =>
    simp only [pnum] at h
    split at h
    · obtain ⟨hsub, hlast⟩ := pnumInt_bounds h
      refine ⟨hsub.trans (List.suffix_cons _ _), fun hr => ?_⟩
      obtain ⟨d, hd, hsuf⟩ := hlast hr
      exact ⟨d, hd, hsuf.trans (List.suffix_cons _ _)⟩
    · exact pnumInt_bounds h

theorem pstringBody_bounds : ∀ fuel {s d r : List Char},
    pstringBody fuel s = some (d, r) →
    r <:+ s ∧ (r = [] → ['"'] <:+ s) := by
  intro fuel
  induction fuel with
  | zero => intro s d r h; exact absurd h (by simp [pstringBody])
  | succ n ih =>
    intro s d r h
    rcases s with _ | ⟨c, rest⟩
    · exact absurd h (by simp [pstringBody])
    · simp only [pstringBody] at h
      split at h
      · rename_i hc
        simp only [Option.some.injEq, Prod.mk.injEq] at h
        obtain ⟨-, h2⟩ := h
        subst h2
        subst hc
        refine ⟨List.suffix_cons _ _, fun hr => ?_⟩
        subst hr
        exact List.suffix_refl _
      · split at h
        · -- escape
          split at h
          · exact absurd h (by simp)
          · rename_i e rest2
            split at h
            · -- simple escape: map over recursive call on rest2
              rw [Option.map_eq_some'] at h
              obtain ⟨p, hp, hf⟩ := h
              obtain ⟨hsub, hlast⟩ := ih hp
              simp only [Prod.mk.injEq] at hf
              obtain ⟨-, h2⟩ := hf
              subst h2
              have hchain : rest2 <:+ c :: e :: rest2 :=
                (List.suffix_cons _ _).trans (List.suffix_cons _ _)
              exact ⟨hsub.trans hchain, fun hr => (hlast hr).trans hchain⟩
            · split at h
              · -- unicode escape
                split at h
                · rename_i h1 h2c h3 h4 rest6
                  split at h
                  · rw [Option.map_eq_some'] at h
                    obtain ⟨p, hp, hf⟩ := h
                    obtain ⟨hsub, hlast⟩ := ih hp
                    simp only [Prod.mk.injEq] at hf
                    obtain ⟨-, hp2⟩ := hf
                    subst hp2
                    have hchain : rest6 <:+ c :: e :: h1 :: h2c :: h3 :: h4 :: rest6 :=
                      (((((List.suffix_cons h4 rest6).trans
                        (List.suffix_cons h3 (h4 :: rest6))).trans
                        (List.suffix_cons h2c (h3 :: h4 :: rest6))).trans
                        (List.suffix_cons h1 (h2c :: h3 :: h4 :: rest6))).trans
                        (List.suffix_cons e (h1 :: h2c :: h3 :: h4 :: rest6))).trans
                        (List.suffix_cons c (e :: h1 :: h2c :: h3 :: h4 :: rest6))
                    exact ⟨hsub.trans hchain, fun hr => (hlast hr).trans hchain⟩
                  · exact absurd h (by simp)
                · exact absurd h (by simp)
              · exact absurd h (by simp)
        · split at h
          · exact absurd h (by simp)
          · -- plain character: map over recursive call on rest
            rw [Option.map_eq_some'] at h
            obtain ⟨p, hp, hf⟩ := h
            obtain ⟨hsub, hlast⟩ := ih hp
            simp only [Prod.mk.injEq] at hf
            obtain ⟨-, h2⟩ := hf
            subst h2
            exact ⟨hsub.trans (List.suffix_cons _ _),
              fun hr => (hlast hr).trans (List.suffix_cons _ _)⟩

theorem exists_nws_mono {a b : List Char}
    (h : ∃ c, isJsWsChar c = false ∧ [c] <:+ a) (hab : a <:+ b) :
    ∃ c, isJsWsChar c = false ∧ [c] <:+ b := by
  obtain ⟨c, hc, hs⟩ := h
  exact ⟨c, hc, hs.trans hab⟩

theorem skipWs_cons_suffix {x r : List Char} {c : Char} (h : skipWs x = c :: r) :
    r <:+ x :=
  suffix_of_cons_suffix (h ▸ skipWs_suffix x)

theorem pstep_objEntry_nil (n : Nat) (acc : List (List Char × Json)) :
    pstep n (.objEntry acc []) = none := by
  cases n <;> simp [pstep]

theorem pstep_bounds : ∀ fuel inp v r, pstep fuel inp = some (v, r) →
    r <:+ inp.src ∧ (r = [] → ∃ c, isJsWsChar c = false ∧ [c] <:+ inp.src) := by
  intro fuel
  induction fuel with
  | zero => intro inp v r h; exact absurd h (by simp [pstep])
  | succ n ih =>
    intro inp v r h
    rcases inp with s | ⟨acc, s0⟩ | ⟨acc, s0⟩ | ⟨acc, s0⟩
    case val =>
      rcases s with _ | ⟨c, r0⟩
      · exact absurd h (by simp [pstep])
      show r <:+ c :: r0 ∧ (r = [] → ∃ d, isJsWsChar d = false ∧ [d] <:+ c :: r0)
      simp only [pstep] at h
      split at h
      · -- c = '{'
        split at h
        · -- skipWs r0 = c2 :: r2
          rename_i c2 r2 heq
          split at h
          · -- c2 = '}'
            rename_i hc2
            simp only [Option.some.injEq, Prod.mk.injEq] at h
            obtain ⟨-, h2⟩ := h
            subst h2
            have hsub := skipWs_cons_suffix heq
            refine ⟨hsub.trans (List.suffix_cons _ _), fun hr => ?_⟩
            subst hr
            subst hc2
            refine ⟨'}', by decide, ?_⟩
            exact (heq ▸ skipWs_suffix r0).trans (List.suffix_cons _ _)
          · -- recurse into objEntry on c2 :: r2
            obtain ⟨hsub, hlast⟩ := ih _ _ _ h
            have hchain : c2 :: r2 <:+ c :: r0 :=
              (heq ▸ skipWs_suffix r0).trans (List.suffix_cons _ _)
            exact ⟨hsub.trans hchain, fun hr => exists_nws_mono (hlast hr) hchain⟩
        · -- skipWs r0 = []
          rw [pstep_objEntry_nil] at h
          exact absurd h (by simp)
      · split at h
        · -- c = '['
          split at h
          · rename_i c2 r2 heq
            split at h
            · -- c2 = ']'
              rename_i hc2
              simp only [Option.some.injEq, Prod.mk.injEq] at h
              obtain ⟨-, h2⟩ := h
              subst h2
              have hsub := skipWs_cons_suffix heq
              refine ⟨hsub.trans (List.suffix_cons _ _), fun hr => ?_⟩
              subst hr
              subst hc2
              refine ⟨']', by decide, ?_⟩
              exact (heq ▸ skipWs_suffix r0).trans (List.suffix_cons _ _)
            · -- element then array tail
              split at h
              · rename_i v1 r3 hval
                obtain ⟨hsub3, -⟩ := ih _ _ _ hval
                obtain ⟨hsub, hlast⟩ := ih _ _ _ h
                have hchain : c2 :: r2 <:+ c :: r0 :=
                  (heq ▸ skipWs_suffix r0).trans (List.suffix_cons _ _)
                have hr3 : r3 <:+ c :: r0 := hsub3.trans hchain
                exact ⟨hsub.trans hr3, fun hr => exists_nws_mono (hlast hr) hr3⟩
              · exact absurd h (by simp)
          · exact absurd h (by simp)
        · split at h
          · -- c = '"'
            rw [Option.map_eq_some'] at h
            obtain ⟨p, hp, hf⟩ := h
            obtain ⟨hsub, hlast⟩ := pstringBody_bounds _ hp
            simp only [Prod.mk.injEq] at hf
            obtain ⟨-, h2⟩ := hf
            subst h2
            refine ⟨hsub.trans (List.suffix_cons _ _), fun hr => ?_⟩
            exact ⟨'"', by decide, (hlast hr).trans (List.suffix_cons _ _)⟩
          · split at h
            · -- c = 't'
              split at h
              · rename_i c1 c2 c3 rest
                split at h
                · rename_i hlit
                  simp only [Bool.and_eq_true, decide_eq_true_eq] at hlit
                  obtain ⟨⟨h1, h2⟩, h3⟩ := hlit
                  simp only [Option.some.injEq, Prod.mk.injEq] at h
                  obtain ⟨-, hre⟩ := h
                  subst hre
                  refine ⟨⟨[c, c1, c2, c3], rfl⟩, fun hr => ?_⟩
                  subst hr
                  subst h3
                  exact ⟨'e', by decide, ⟨[c, c1, c2], rfl⟩⟩
                · exact absurd h (by simp)
              · exact absurd h (by simp)
            · split at h
              · -- c = 'f'
                split at h
                · rename_i c1 c2 c3 c4 rest
                  split at h
                  · rename_i hlit
                    simp only [Bool.and_eq_true, decide_eq_true_eq] at hlit
                    obtain ⟨⟨⟨h1, h2⟩, h3⟩, h4⟩ := hlit
                    simp only [Option.some.injEq, Prod.mk.injEq] at h
                    obtain ⟨-, hre⟩ := h
                    subst hre
                    refine ⟨⟨[c, c1, c2, c3, c4], rfl⟩, fun hr => ?_⟩
                    subst hr
                    subst h4
                    exact ⟨'e', by decide, ⟨[c, c1, c2, c3], rfl⟩⟩
                  · exact absurd h (by simp)
                · exact absurd h (by simp)
              · split at h
                · -- c = 'n'
                  split at h
                  · rename_i c1 c2 c3 rest
                    split at h
                    · rename_i hlit
                      simp only [Bool.and_eq_true, decide_eq_true_eq] at hlit
                      obtain ⟨⟨h1, h2⟩, h3⟩ := hlit
                      simp only [Option.some.injEq, Prod.mk.injEq] at h
                      obtain ⟨-, hre⟩ := h
                      subst hre
                      refine ⟨⟨[c, c1, c2, c3], rfl⟩, fun hr => ?_⟩
                      subst hr
                      subst h3
                      exact ⟨'l', by decide, ⟨[c, c1, c2], rfl⟩⟩
                    · exact absurd h (by simp)
                  · exact absurd h (by simp)
                · split at h
                  · -- number
                    rw [Option.map_eq_some'] at h
                    obtain ⟨p, hp, hf⟩ := h
                    obtain ⟨hsub, hlast⟩ := pnum_bounds hp
                    simp only [Prod.mk.injEq] at hf
                    obtain ⟨-, h2⟩ := hf
                    subst h2
                    refine ⟨hsub, fun hr => ?_⟩
                    obtain ⟨d, hd, hs⟩ := hlast hr
                    exact ⟨d, isDigit_not_jsWs hd, hs⟩
                  · exact absurd h (by simp)
    case arrTail =>
      show r <:+ s0 ∧ (r = [] → ∃ d, isJsWsChar d = false ∧ [d] <:+ s0)
      simp only [pstep] at h
      split at h
      · rename_i c r1 heq
        split at h
        · -- c = ','
          split at h
          · rename_i v1 r2 hval
            obtain ⟨hsub2, -⟩ := ih _ _ _ hval
            obtain ⟨hsub, hlast⟩ := ih _ _ _ h
            have hr2 : r2 <:+ s0 :=
              ((hsub2.trans (skipWs_suffix r1)).trans (skipWs_cons_suffix heq))
            exact ⟨hsub.trans hr2, fun hr => exists_nws_mono (hlast hr) hr2⟩
          · exact absurd h (by simp)
        · split at h
          · -- c = ']'
            rename_i hc
            simp only [Option.some.injEq, Prod.mk.injEq] at h
            obtain ⟨-, h2⟩ := h
            subst h2
            refine ⟨skipWs_cons_suffix heq, fun hr => ?_⟩
            subst hr
            subst hc
            exact ⟨']', by decide, heq ▸ skipWs_suffix s0⟩
          · exact absurd h (by simp)
      · exact absurd h (by simp)
    case objEntry =>
      show r <:+ s0 ∧ (r = [] → ∃ d, isJsWsChar d = false ∧ [d] <:+ s0)
      simp only [pstep] at h
      split at h
      · rename_i c r1
        split at h
        · -- c = '"'
          split at h
          · rename_i k r2 hstr
            obtain ⟨hsub2, -⟩ := pstringBody_bounds _ hstr
            split at h
            · rename_i c2 r3 heq3
              split at h
              · -- c2 = ':'
                split at h
                · rename_i v1 r4 hval
                  obtain ⟨hsub4, -⟩ := ih _ _ _ hval
                  obtain ⟨hsub, hlast⟩ := ih _ _ _ h
                  have hr4 : r4 <:+ c :: r1 :=
                    ((((hsub4.trans (skipWs_suffix r3)).trans
                        (skipWs_cons_suffix heq3)).trans hsub2).trans
                      (List.suffix_cons _ _))
                  exact ⟨hsub.trans hr4, fun hr => exists_nws_mono (hlast hr) hr4⟩
                · exact absurd h (by simp)
              · exact absurd h (by simp)
            · exact absurd h (by simp)
          · exact absurd h (by simp)
        · exact absurd h (by simp)
      · exact absurd h (by simp)
    case objTail =>
      show r <:+ s0 ∧ (r = [] → ∃ d, isJsWsChar d = false ∧ [d] <:+ s0)
      simp only [pstep] at h
      split at h
      · rename_i c r1 heq
        split at h
        · -- c = ','
          obtain ⟨hsub, hlast⟩ := ih _ _ _ h
          have hr1 : skipWs r1 <:+ s0 :=
            (skipWs_suffix r1).trans (skipWs_cons_suffix heq)
          exact ⟨hsub.trans hr1, fun hr => exists_nws_mono (hlast hr) hr1⟩
        · split at h
          · -- c = '}'
            rename_i hc
            simp only [Option.some.injEq, Prod.mk.injEq] at h
            obtain ⟨-, h2⟩ := h
            subst h2
            refine ⟨skipWs_cons_suffix heq, fun hr => ?_⟩
            subst hr
            subst hc
            exact ⟨'}', by decide, heq ▸ skipWs_suffix s0⟩
          · exact absurd h (by simp)
      · exact absurd h (by simp)

theorem not_jsWs_not_jsonWs {c : Char} (h : isJsWsChar c = false) :
    isJsonWs c = false := by
  cases hj : isJsonWs c
  · rfl
  · rw [isJsonWs_isJsWsChar hj] at h
    exact absurd h (by simp)

theorem pstep_val_head {fuel : Nat} {s : List Char} {x : Json × List Char}
    (h : pstep fuel (.val s) = some x) :
    ∃ c r0, s = c :: r0 ∧ isJsWsChar c = false := by
  match fuel with
  | 0 => exact absurd h (by simp [pstep])
  | n + 1 =>
    rcases s with _ | ⟨c, r0⟩
    · exact absurd h (by simp [pstep])
    refine ⟨c, r0, rfl, ?_⟩
    simp only [pstep] at h
    by_cases h1 : c = '{'
    · subst h1; decide
    rw [if_neg h1] at h
    by_cases h2 : c = '['
    · subst h2; decide
    rw [if_neg h2] at h
    by_cases h3 : c = '"'
    · subst h3; decide
    rw [if_neg h3] at h
    by_cases h4 : c = 't'
    · subst h4; decide
    rw [if_neg h4] at h
    by_cases h5 : c = 'f'
    · subst h5; decide
    rw [if_neg h5] at h
    by_cases h6 : c = 'n'
    · subst h6; decide
    rw [if_neg h6] at h
    by_cases h7 : (c = '-' || isDigit c) = true
    · rcases Bool.or_eq_true _ _ ▸ h7 with h8 | h8
      · have : c = '-' := by simpa using h8
        subst this; decide
      · exact isDigit_not_jsWs h8
    · rw [if_neg h7] at h
      exact absurd h (by simp)

theorem dropWhile_dropWhile_of_imp {p q : Char → Bool}
    (himp : ∀ c, q c = true → p c = true) :
    ∀ l : List Char, (l.dropWhile q).dropWhile p = l.dropWhile p := by
  intro l
  induction l with
  | nil => simp
  | cons a l ihl =>
    by_cases hq : q a = true
    · rw [List.dropWhile_cons, if_pos hq, ihl, List.dropWhile_cons,
        if_pos (himp a hq)]
    · rw [List.dropWhile_cons, if_neg hq]

theorem stripL_stripL {p q : Char → Bool} (himp : ∀ c, q c = true → p c = true)
    (l : List Char) : stripL p (stripL q l) = stripL p l :=
  dropWhile_dropWhile_of_imp himp l

theorem stripR_stripR {p q : Char → Bool} (himp : ∀ c, q c = true → p c = true)
    (l : List Char) : stripR p (stripR q l) = stripR p l := by
  simp only [stripR, List.reverse_reverse]
  rw [dropWhile_dropWhile_of_imp himp]

theorem stripL_cons_of_neg {p : Char → Bool} {c : Char} {r : List Char}
    (h : p c = false) : stripL p (c :: r) = c :: r := by
  simp [stripL, List.dropWhile_cons, h]

theorem stripR_of_last {p : Char → Bool} {s : List Char} {c : Char}
    (hs : [c] <:+ s) (h : p c = false) : stripR p s = s := by
  obtain ⟨t, ht⟩ := hs
  subst ht
  simp only [stripR, List.reverse_append, List.reverse_cons, List.reverse_nil,
    List.nil_append, List.singleton_append]
  rw [List.dropWhile_cons, if_neg (by simp [h])]
  simp

theorem stripR_append (p : Char → Bool) (y : List Char) :
    ∃ w, stripR p y ++ w = y ∧ ∀ c ∈ w, p c = true := by
  refine ⟨(y.reverse.takeWhile p).reverse, ?_, ?_⟩
  · rw [stripR, ← List.reverse_append, List.takeWhile_append_dropWhile,
      List.reverse_reverse]
  · intro c hc
    rw [List.mem_reverse] at hc
    exact List.mem_takeWhile_imp hc

/-- `JSON.parse`-validity survives JavaScript `trim()`: if `t` parses,
then `t.trim()` is exactly the JSON-whitespace-stripped core and parses
to the same value. -/
theorem jsonParse_trim {t : List Char} {v : Json} (h : jsonParse t = some v) :
    jsTrim t = stripBoth isJsonWs t ∧ jsonParse (jsTrim t) = some v := by
  have himp : ∀ c, isJsonWs c = true → isJsWsChar c = true := fun _ => isJsonWs_isJsWsChar
  rw [jsonParse] at h
  have hp : pstep ((stripBoth isJsonWs t).length + 1) (.val (stripBoth isJsonWs t)) =
      some (v, []) := by
    rw [pvExact] at h
    split at h
    · rename_i v' heq
      simp only [Option.some.injEq] at h
      rw [← h]
      exact heq
    · exact absurd h (by simp)
  obtain ⟨c0, r0, hshape, hc0⟩ := pstep_val_head hp
  obtain ⟨hsub, hlast⟩ := pstep_bounds _ _ _ _ hp
  obtain ⟨cL, hcL, hcLs⟩ := hlast rfl
  have hcLs' : [cL] <:+ stripBoth isJsonWs t := hcLs
  -- A: the js-trimmed-left text equals the JSON-stripped-left text
  have hA : stripL isJsWsChar t = stripL isJsonWs t := by
    obtain ⟨w, hw, -⟩ := stripR_append isJsonWs (stripL isJsonWs t)
    have hy : stripL isJsonWs t = c0 :: (r0 ++ w) := by
      rw [← hw]
      show stripBoth isJsonWs t ++ w = _
      rw [hshape, List.cons_append]
    rw [← stripL_stripL himp t, hy, stripL_cons_of_neg hc0, ← hy]
  -- B: js-stripping the right end of the stripped-left text gives the core
  have hB : stripR isJsWsChar (stripL isJsonWs t) = stripBoth isJsonWs t := by
    rw [← stripR_stripR himp (stripL isJsonWs t)]
    show stripR isJsWsChar (stripBoth isJsonWs t) = _
    exact stripR_of_last hcLs' hcL
  have htrim : jsTrim t = stripBoth isJsonWs t := by
    rw [jsTrim, stripBoth, hA, hB]
  refine ⟨htrim, ?_⟩
  rw [htrim, jsonParse]
  have hidem : stripBoth isJsonWs (stripBoth isJsonWs t) = stripBoth isJsonWs t := by
    rw [stripBoth]
    rw [hshape, stripL_cons_of_neg (not_jsWs_not_jsonWs hc0), ← hshape]
    exact stripR_of_last hcLs' (not_jsWs_not_jsonWs hcL)
  rw [hidem, pvExact, hp]

/-- Strategy 1 settles every valid JSON text whose value is an object
or array: `extractJSON` returns exactly the `JSON.parse` value. -/
theorem extractJSON_valid_objArr {t : List Char} {v : Json}
    (h : jsonParse t = some v) (ho : isObjArr v = true) :
    extractJSON t = .ok v := by
  obtain ⟨-, hpt⟩ := jsonParse_trim h
  have hne : t.isEmpty = false := by
    cases t
    · have hnil : jsonParse ([] : List Char) = none := rfl
      rw [hnil] at h
      cases h
    · rfl
  have hstr : isJSONStr (jsTrim t) = true := by
    rw [isJSONStr, hpt]
    exact ho
  rw [extractJSON, if_neg (by simp [hne]), if_pos hstr, hpt]

/-! ## Orchestrator metatheory

The per-attempt pipeline is a pure function of the oracle and the
attempt index; the loop lemmas connect a whole `runAttempts` trace to
it. -/

/-- The value delivered by the parse stage of attempt `i`, when the
collaborator call and the parse succeed. -/
def attParsedV (e : Env) (i : Nat) : Option Json :=
  match (attCollab e i).2 with
  | .ok v => some v
  | .error _ => none

/-- The outcome of attempt `i` after validation. -/
def attOutcome (e : Env) (i : Nat) : Except (List Char) Json :=
  match (attCollab e i).2 with
  | .error m => .error m
  | .ok v =>
    match e.vald i v with
    | none => .ok v
    | some m => .error m

/-- The metadata and value of attempt `i` when its collaborator call
and parse both succeed (exactly the attempts whose usage the
accumulator records). -/
def attParseRes (e : Env) (i : Nat) : Option (Meta × Json) :=
  match attCollab e i with
  | (some m, .ok v) => some (m, v)
  | _ => none

/-- A successful parse always comes with captured metadata: the
collaborator steps set `lastResponseMetadata` before returning. -/
theorem attCollab_ok {e : Env} {i : Nat} {v : Json}
    (h : (attCollab e i).2 = .ok v) :
    ∃ m, attCollab e i = (some m, .ok v) := by
  rcases hfull : attCollab e i with ⟨mu, res⟩
  rw [hfull] at h
  simp only at h
  subst h
  rcases mu with _ | m
  · exfalso
    rw [attCollab] at hfull
    split at hfull
    · rcases ho : e.oracle i with msg | r
      · rw [ho] at hfull
        simp [rawMessageStep] at hfull
      · rw [ho] at hfull
        simp only [rawMessageStep] at hfull
        rcases hx : extractJSON r.text with em | j
        · rw [hx] at hfull
          simp at hfull
        · rw [hx] at hfull
          simp at hfull
    · rcases ho : e.oracle i with msg | r
      · rw [ho] at hfull
        simp [rebuildStep] at hfull
      · rw [ho] at hfull
        simp only [rebuildStep] at hfull
        rcases hx : jsonParse r.text with _ | j
        · rw [hx] at hfull
          simp at hfull
        · rw [hx] at hfull
          simp at hfull
  · exact ⟨m, rfl⟩

/-- The cumulative-usage update of one attempt, as the source performs
it: add the attempt's captured token counts and set `attempts` to
`i + 1`, but only when the collaborator call and parse succeeded (the
exception path skips the accumulation block). -/
def stepCum (e : Env) (c : CumUsage) (i : Nat) : CumUsage :=
  match attParseRes e i with
  | some (m, _) =>
    { promptTokens := c.promptTokens + m.promptTokens
      responseTokens := c.responseTokens + m.responseTokens
      totalTokens := c.totalTokens + m.totalTokens
      attempts := i + 1 }
  | none => c

/-- Folding the per-attempt update over `n` consecutive attempts. -/
def cumFold (e : Env) : CumUsage → Nat → Nat → CumUsage
  | c, _, 0 => c
  | c, att, n + 1 => cumFold e (stepCum e c att) (att + 1) n

theorem attemptStep_parsed (e : Env) (i : Nat) (st : OState) :
    (attemptStep e i st).2.1 = attParsedV e i := by
  rcases hres : attCollab e i with ⟨mu, res⟩
  rcases res with m | v
  · simp [attemptStep, attParsedV, hres]
  · rcases hv : e.vald i v with _ | m2 <;>
      simp [attemptStep, attParsedV, hres, hv]

theorem attemptStep_outcome (e : Env) (i : Nat) (st : OState) :
    (attemptStep e i st).2.2.1 = attOutcome e i := by
  rcases hres : attCollab e i with ⟨mu, res⟩
  rcases res with m | v
  · simp [attemptStep, attOutcome, hres]
  · rcases hv : e.vald i v with _ | m2 <;>
      simp [attemptStep, attOutcome, hres, hv]

theorem attemptStep_cum (e : Env) (i : Nat) (st : OState) :
    (attemptStep e i st).2.2.2.cum = stepCum e st.cum i := by
  rcases hres : attCollab e i with ⟨mu, res⟩
  rcases res with m | v
  · have hpr : attParseRes e i = none := by
      rw [attParseRes, hres]
      rcases mu with _ | m1 <;> simp
    rcases mu with _ | m1 <;> simp [attemptStep, stepCum, hres, hpr]
  · have hok : (attCollab e i).2 = .ok v := by rw [hres]
    obtain ⟨m, hm⟩ := attCollab_ok hok
    rw [hres] at hm
    simp only [Prod.mk.injEq, Except.ok.injEq] at hm
    obtain ⟨hmu, -⟩ := hm
    subst hmu
    have hpr : attParseRes e i = some (m, v) := by
      rw [attParseRes, hres]
    rcases hv : e.vald i v with _ | m2 <;>
      simp [attemptStep, stepCum, hres, hpr, hv]

theorem attemptStep_lastPayload_of_parsed {e : Env} {i : Nat} {st : OState} {v : Json}
    (h : (attemptStep e i st).2.1 = some v) :
    (attemptStep e i st).2.2.2.lastPayload = .value v := by
  rw [attemptStep_parsed] at h
  rcases hres : attCollab e i with ⟨mu, res⟩
  rcases res with m | w
  · rw [attParsedV, hres] at h
    simp at h
  · rw [attParsedV, hres] at h
    simp only [Option.some.injEq] at h
    subst h
    rcases hv : e.vald i w with _ | m2 <;>
      simp [attemptStep, hres, hv]

theorem attemptStep_call (e : Env) (i : Nat) (st : OState) :
    (attemptStep e i st).1 =
      if i = 0 then CallRec.send (lp2text st.lastPayload)
      else CallRec.rebuildCall st.lastPayload (st.lastError.getD []) := by
  rcases hres : attCollab e i with ⟨mu, res⟩
  rcases res with m | v
  · simp [attemptStep, hres]
  · rcases hv : e.vald i v with _ | m2 <;> simp [attemptStep, hres, hv]

theorem runAttempts_ok {e : Env} {rem att : Nat} {st : OState} {v : Json}
    (h : (attemptStep e att st).2.2.1 = .ok v) :
    runAttempts e rem att st =
      ([⟨att, (attemptStep e att st).1, (attemptStep e att st).2.1, .ok v, none⟩],
        (attemptStep e att st).2.2.2, .ok v) := by
  rw [runAttempts]
  simp only [h]

theorem runAttempts_err0 {e : Env} {att : Nat} {st : OState} {msg : List Char}
    (h : (attemptStep e att st).2.2.1 = .error msg) :
    runAttempts e 0 att st =
      ([⟨att, (attemptStep e att st).1, (attemptStep e att st).2.1, .error msg, none⟩],
        setErr (attemptStep e att st).2.2.2 msg,
        .error (aggMsg e.maxRetries msg)) := by
  rw [runAttempts]
  simp only [h]

theorem runAttempts_errS {e : Env} {r att : Nat} {st : OState} {msg : List Char}
    (h : (attemptStep e att st).2.2.1 = .error msg) :
    runAttempts e (r + 1) att st =
      (⟨att, (attemptStep e att st).1, (attemptStep e att st).2.1, .error msg,
          some (e.retryDelay * 2 ^ att)⟩ ::
        (runAttempts e r (att + 1)
          (setErr (attemptStep e att st).2.2.2 msg)).1,
        (runAttempts e r (att + 1)
          (setErr (attemptStep e att st).2.2.2 msg)).2) := by
  rw [runAttempts]
  simp only [h]

/-- The failing attempt's error message (junk on success). -/
def attErrMsg (e : Env) (i : Nat) : List Char :=
  match attOutcome e i with
  | .error m => m
  | .ok _ => []

theorem runAttempts_length_le (e : Env) :
    ∀ rem att st, (runAttempts e rem att st).1.length ≤ rem + 1 := by
  intro rem
  induction rem with
  | zero =>
    intro att st
    rcases ho : (attemptStep e att st).2.2.1 with msg | v
    · rw [runAttempts_err0 ho]
      simp
    · rw [runAttempts_ok ho]
      simp
  | succ r ihr =>
    intro att st
    rcases ho : (attemptStep e att st).2.2.1 with msg | v
    · rw [runAttempts_errS ho]
      simpa using Nat.succ_le_succ (ihr (att + 1) _)
    · rw [runAttempts_ok ho]
      simp

theorem runAttempts_length_pos (e : Env) :
    ∀ rem att st, 1 ≤ (runAttempts e rem att st).1.length := by
  intro rem att st
  rcases ho : (attemptStep e att st).2.2.1 with msg | v
  · cases rem with
    | zero => rw [runAttempts_err0 ho]; simp
    | succ r => rw [runAttempts_errS ho]; simp
  · rw [runAttempts_ok ho]; simp

theorem runAttempts_allFail (e : Env)
    (hf : ∀ i, ∃ m, attOutcome e i = .error m) :
    ∀ rem att st,
      (runAttempts e rem att st).1.length = rem + 1 ∧
      (runAttempts e rem att st).2.2 =
        .error (aggMsg e.maxRetries (attErrMsg e (att + rem))) := by
  intro rem
  induction rem with
  | zero =>
    intro att st
    obtain ⟨m, hm⟩ := hf att
    have ho : (attemptStep e att st).2.2.1 = .error m := by
      rw [attemptStep_outcome, hm]
    rw [runAttempts_err0 ho]
    refine ⟨by simp, ?_⟩
    simp only [Nat.add_zero]
    rw [attErrMsg, hm]
  | succ r ihr =>
    intro att st
    obtain ⟨m, hm⟩ := hf att
    have ho : (attemptStep e att st).2.2.1 = .error m := by
      rw [attemptStep_outcome, hm]
    rw [runAttempts_errS ho]
    obtain ⟨ih1, ih2⟩ := ihr (att + 1) (setErr (attemptStep e att st).2.2.2 m)
    refine ⟨by simpa using ih1, ?_⟩
    simp only
    have hidx : att + 1 + r = att + (r + 1) := by omega
    rw [hidx] at ih2
    exact ih2

theorem runAttempts_events (e : Env) :
    ∀ rem att st k ev, (runAttempts e rem att st).1.get? k = some ev →
      ev.idx = att + k ∧ ev.outcome = attOutcome e (att + k) ∧
      ev.parsed = attParsedV e (att + k) ∧
      ev.delayMs = (if k + 1 < (runAttempts e rem att st).1.length
        then some (e.retryDelay * 2 ^ (att + k)) else none) := by
  intro rem
  induction rem with
  | zero =>
    intro att st k ev h
    rcases ho : (attemptStep e att st).2.2.1 with msg | v <;>
      [rw [runAttempts_err0 ho] at h ⊢; rw [runAttempts_ok ho] at h ⊢] <;>
      rcases k with _ | k <;> simp only [List.get?_cons_zero, List.get?_cons_succ,
        List.get?_nil, Option.some.injEq] at h <;> [skip; exact absurd h (by simp);
        skip; exact absurd h (by simp)] <;> subst h <;>
      refine ⟨by simp, ?_, by simp only [Nat.add_zero]; rw [← attemptStep_parsed e att st], by simp⟩ <;>
      simp only [Nat.add_zero] <;> rw [← attemptStep_outcome e att st, ho]
  | succ r ihr =>
    intro att st k ev h
    rcases ho : (attemptStep e att st).2.2.1 with msg | v
    · rw [runAttempts_errS ho] at h ⊢
      rcases k with _ | k
      · simp only [List.get?_cons_zero, Option.some.injEq] at h
        subst h
        refine ⟨by simp, ?_, by simp only [Nat.add_zero]; rw [← attemptStep_parsed e att st], ?_⟩
        · simp only [Nat.add_zero]
          rw [← attemptStep_outcome e att st, ho]
        · have hpos := runAttempts_length_pos e r (att + 1)
            (setErr (attemptStep e att st).2.2.2 msg)
          simp only [List.length_cons]
          rw [if_pos (Nat.succ_lt_succ hpos)]
          simp
      · simp only [List.get?_cons_succ] at h
        obtain ⟨h1, h2, h3, h4⟩ := ihr (att + 1) _ k ev h
        refine ⟨by rw [h1]; omega, ?_, ?_, ?_⟩
        · rw [h2]
          congr 1
          omega
        · rw [h3]
          congr 1
          omega
        · rw [h4]
          simp only [List.length_cons]
          have hco : att + 1 + k = att + (k + 1) := by omega
          by_cases hlt : k + 1 < (runAttempts e r (att + 1)
              (setErr (attemptStep e att st).2.2.2 msg)).1.length
          · rw [if_pos hlt, if_pos (by omega), hco]
          · rw [if_neg hlt, if_neg (by omega)]
    · rw [runAttempts_ok ho] at h ⊢
      rcases k with _ | k
      · simp only [List.get?_cons_zero, Option.some.injEq] at h
        subst h
        refine ⟨by simp, ?_, by simp only [Nat.add_zero]; rw [← attemptStep_parsed e att st], by simp⟩
        simp only [Nat.add_zero]
        rw [← attemptStep_outcome e att st, ho]
      · simp only [List.get?_cons_succ, List.get?_nil] at h
        exact absurd h (by simp)

theorem runAttempts_cum (e : Env) :
    ∀ rem att st, (runAttempts e rem att st).2.1.cum =
      cumFold e st.cum att (runAttempts e rem att st).1.length := by
  intro rem
  induction rem with
  | zero =>
    intro att st
    rcases ho : (attemptStep e att st).2.2.1 with msg | v
    · rw [runAttempts_err0 ho]
      simp only [List.length_singleton]
      rw [cumFold, cumFold]
      exact attemptStep_cum e att st
    · rw [runAttempts_ok ho]
      simp only [List.length_singleton]
      rw [cumFold, cumFold]
      exact attemptStep_cum e att st
  | succ r ihr =>
    intro att st
    rcases ho : (attemptStep e att st).2.2.1 with msg | v
    · rw [runAttempts_errS ho]
      simp only [List.length_cons]
      have ih := ihr (att + 1) (setErr (attemptStep e att st).2.2.2 msg)
      rw [cumFold]
      simp only at ih ⊢
      rw [ih]
      congr 1
      show (setErr (attemptStep e att st).2.2.2 msg).cum = stepCum e st.cum att
      rw [setErr]
      simpa using attemptStep_cum e att st
    · rw [runAttempts_ok ho]
      simp only [List.length_singleton]
      rw [cumFold, cumFold]
      exact attemptStep_cum e att st

theorem runAttempts_head (e : Env) (rem att : Nat) (st : OState) :
    ∃ ev0 l, (runAttempts e rem att st).1 = ev0 :: l ∧
      ev0.call = (attemptStep e att st).1 ∧
      ev0.parsed = (attemptStep e att st).2.1 ∧
      ev0.outcome = (attemptStep e att st).2.2.1 := by
  rcases ho : (attemptStep e att st).2.2.1 with msg | v
  · cases rem with
    | zero =>
      rw [runAttempts_err0 ho]
      exact ⟨_, _, rfl, rfl, rfl, by simp [ho]⟩
    | succ r =>
      rw [runAttempts_errS ho]
      exact ⟨_, _, rfl, rfl, rfl, by simp [ho]⟩
  · rw [runAttempts_ok ho]
    exact ⟨_, _, rfl, rfl, rfl, by simp [ho]⟩

theorem runAttempts_feedback (e : Env) :
    ∀ rem att st k ev ev' v m,
      (runAttempts e rem att st).1.get? k = some ev →
      (runAttempts e rem att st).1.get? (k + 1) = some ev' →
      ev.parsed = some v → ev.outcome = .error m →
      ev'.call = .rebuildCall (.value v) m := by
  intro rem
  induction rem with
  | zero =>
    intro att st k ev ev' v m h1 h2 hp hm
    rcases ho : (attemptStep e att st).2.2.1 with msg | w <;>
      [rw [runAttempts_err0 ho] at h2; rw [runAttempts_ok ho] at h2] <;>
      · rw [List.get?_cons_succ, List.get?_nil] at h2
        exact absurd h2 (by simp)
  | succ r ihr =>
    intro att st k ev ev' v m h1 h2 hp hm
    rcases ho : (attemptStep e att st).2.2.1 with msg | w
    · rw [runAttempts_errS ho] at h1 h2
      rcases k with _ | k
      · rw [List.get?_cons_zero] at h1
        rw [List.get?_cons_succ] at h2
        simp only [Option.some.injEq] at h1
        subst h1
        simp only at hp hm
        rw [ho] at *
        have hmsg : msg = m := by
          simpa using hm
        subst hmsg
        obtain ⟨ev0, l, hl, hc, -, -⟩ := runAttempts_head e r (att + 1)
          (setErr (attemptStep e att st).2.2.2 msg)
        rw [hl, List.get?_cons_zero] at h2
        simp only [Option.some.injEq] at h2
        subst h2
        rw [hc, attemptStep_call, if_neg (by omega)]
        have hlp := attemptStep_lastPayload_of_parsed hp
        simp only [setErr, hlp]
        rfl
      · rw [List.get?_cons_succ] at h1 h2
        exact ihr (att + 1) _ k ev ev' v m h1 h2 hp hm
    · rw [runAttempts_ok ho] at h1 h2
      rcases k with _ | k <;>
        · simp only [List.get?_cons_succ, List.get?_nil] at h2
          exact absurd h2 (by simp)

/-- Attempts `n > 0` deliver exactly the bare `JSON.parse` of the raw
reply text: no strategy chain, no envelope unwrap. -/
theorem attParsedV_rebuild {e : Env} {i : Nat} (hi : i ≠ 0) :
    attParsedV e i = (match e.oracle i with
      | .reply r => jsonParse r.text
      | .fail _ => none) := by
  rw [attParsedV, attCollab, if_neg hi]
  rcases ho : e.oracle i with msg | r
  · simp [rebuildStep]
  · simp only [rebuildStep]
    rcases hx : jsonParse r.text with _ | j <;> simp [hx]

/-- Attempt 0 delivers the strategy-chain extraction followed by the
envelope unwrap. -/
theorem rawMessageStep_ok {mn : List Char} {oj : Bool} {now : Nat} {r : ModelReply}
    {j : Json} (h : extractJSON r.text = .ok j) :
    (rawMessageStep mn oj now (.reply r)).2 = .ok (unwrapData j) := by
  simp [rawMessageStep, h]

theorem transform_run {mn : List Char} {oj : Bool} {imr ird : Nat}
    {oracle : Nat → CallOutcome} {vald : Nat → Json → Option (List Char)}
    {omr ord : Option Nat} {payload : JsPayload} {p : List Char}
    {meta0 : Option Meta} {cum0 : CumUsage}
    (hp : preparePayload payload = .ok p) :
    transform mn oj imr ird oracle vald omr ord payload meta0 cum0 =
      runAttempts ⟨mn, oj, oracle, vald, effOption omr imr, effOption ord ird⟩
        (effOption omr imr) 0 ⟨none, .rawStr p, meta0, zeroCum⟩ := by
  simp only [transform, hp]

theorem transform_invalid {mn : List Char} {oj : Bool} {imr ird : Nat}
    {oracle : Nat → CallOutcome} {vald : Nat → Json → Option (List Char)}
    {omr ord : Option Nat} {payload : JsPayload} {m : List Char}
    {meta0 : Option Meta} {cum0 : CumUsage}
    (hp : preparePayload payload = .error m) :
    transform mn oj imr ird oracle vald omr ord payload meta0 cum0 =
      ([], ⟨none, .rawStr [], meta0, cum0⟩, .error m) := by
  simp only [transform, hp]

/-- The aggregate message contains the substring the spec's regex
`/failed after N attempts/i` looks for. -/
theorem aggMsg_infix (mr : Nat) (last : List Char) :
    ("failed after ".toList ++ natChars (mr + 1) ++ " attempts".toList) <:+:
      aggMsg mr last := by
  refine ⟨"Transformation ".toList, ". Last error: ".toList ++ last, ?_⟩
  rw [aggMsg]
  have h1 : ("Transformation failed after ".toList : List Char) =
      "Transformation ".toList ++ "failed after ".toList := by decide
  have h2 : (" attempts. Last error: ".toList : List Char) =
      " attempts".toList ++ ". Last error: ".toList := by decide
  rw [h1, h2]
  simp [List.append_assoc]

/-! ## Claims -/

/-- The truncated input of claim C2. -/
def c2Text : List Char := "\x7b\"a\": 1, \"b\": [1,2".toList

/-- The value claim C2 asserts the recovery produces. -/
def c2Claimed : Json :=
  .obj [(['a'], .num ['1']), (['b'], .arr [.num ['1'], .num ['2']])]

/-- The value the code actually recovers. -/
def c2Actual : Json := .obj [(['a'], .num ['1'])]

/-- Claim C2, counterexample: `extract('\x7b"a": 1, "b": [1,2')` does not
return `\x7b"a":1,"b":[1,2]\x7d`; it returns `\x7b"a":1\x7d`. -/
theorem c2_counterexample :
    extractJSON c2Text = .ok c2Actual ∧ c2Actual ≠ c2Claimed := by
  constructor
  · decide
  · decide

/-- Claim C2 (corrected): on the truncated text
`'\x7b"a": 1, "b": [1,2'`, the closing-characters step appends the
missing closing quote and then all missing `\x7d` before all missing
`]` — grouped by bracket type, not in LIFO nesting order — so its
candidate (the text followed by `\x7d]`) fails to parse, and the
recovery instead falls to the progressive-trim loop, which yields
`\x7b"a":1\x7d`. -/
theorem c2_truncation_recovery :
    extractJSON c2Text = .ok c2Actual ∧
    addClosers (jsTrim c2Text) (countBal (jsTrim c2Text)) = c2Text ++ ['}', ']'] ∧
    jsonParse (addClosers (jsTrim c2Text) (countBal (jsTrim c2Text))) = none := by
  refine ⟨by decide, by decide, by decide⟩

/-- Claim C4, counterexample: `'null'` is valid JSON
(`JSON.parse('null')` is `null`), but `extract('null')` throws: the
recovery strategy's `null` return is indistinguishable from failure in
the `!== null` check, and no earlier strategy accepts a bare scalar. -/
theorem c4_counterexample :
    jsonParse ("null".toList) = some Json.null ∧
    extractJSON ("null".toList) = .error (previewMsg ("null".toList)) := by
  refine ⟨by decide, by decide⟩

/-- Claim C4 (corrected): for every string `t` that is valid JSON whose
value is an object or an array, `extract(t)` succeeds and deep-equals
`JSON.parse(t)` (strategy 1 accepts the trimmed text).  Scalar-valued
JSON texts are not covered: `'null'` fails outright, and a JSON string
whose contents contain a bracketed span can be hijacked by the greedy
bracket strategies. -/
theorem c4_extract_valid_json {t : List Char} {v : Json}
    (h : jsonParse t = some v) (ho : isObjArr v = true) :
    extractJSON t = .ok v :=
  extractJSON_valid_objArr h ho

/-- Witness for C4 at a concrete valid JSON object text. -/
theorem c4_witness :
    extractJSON (" \x7b\"a\": [1, true]\x7d ".toList) =
      .ok (.obj [("a".toList, .arr [.num ['1'], .bool true])]) :=
  c4_extract_valid_json (by decide) (by decide)

/-- Raw model text used by the C1 run: a `data` envelope. -/
def c1Text : List Char := "\x7b\"data\": \x7b\"ok\": true\x7d\x7d".toList

/-- C1 oracle: every attempt replies with the same envelope text. -/
def c1Oracle : Nat → CallOutcome := fun _ => .reply ⟨c1Text, some ⟨3, 4, 7⟩, none⟩

/-- C1 validator: reject attempt 0, accept afterwards. -/
def c1Vald : Nat → Json → Option (List Char) :=
  fun i _ => if i = 0 then some ("bad".toList) else none

/-- The C1 transform run: `maxRetries` 1, `retryDelay` 100, null
payload. -/
def c1Run : List AttemptEv × OState × Except (List Char) Json :=
  transform ("m".toList) true 3 1000 c1Oracle c1Vald (some 1) (some 100) .jnull none zeroCum

/-- The whole envelope object. -/
def c1Wrapper : Json := .obj [("data".toList, .obj [("ok".toList, .bool true)])]

/-- The value under the `data` key. -/
def c1Inner : Json := .obj [("ok".toList, .bool true)]

/-- Claim C1, counterexample: with the same raw model text on both
attempts, attempt 0's path (strategy chain + envelope unwrap) produces
the inner value, but the retry attempt returns the whole wrapper: the
transform call resolves with the wrapper, while `rawMessage`'s
processing of the very same reply yields the unwrapped value. -/
theorem c1_counterexample :
    c1Run.2.2 = .ok c1Wrapper ∧
    (rawMessageStep ("m".toList) true 1 (c1Oracle 1)).2 = .ok c1Inner ∧
    c1Wrapper ≠ c1Inner := by
  refine ⟨by decide, by decide, by decide⟩

/-- Claim C1 (corrected): inside a `transform()` call, every retry
attempt `n > 0` obtains its value by bare `JSON.parse` of the rebuild
reply's text — the Response Parser strategy chain is not applied and a
`data` envelope is not unwrapped — unlike attempt 0, which runs
`extractJSON` followed by the truthiness-keyed unwrap. -/
theorem c1_rebuild_bare_parse {mn : List Char} {oj : Bool} {imr ird : Nat}
    {oracle : Nat → CallOutcome} {vald : Nat → Json → Option (List Char)}
    {omr ord : Option Nat} {payload : JsPayload} {p : List Char}
    {meta0 : Option Meta} {cum0 : CumUsage} {k : Nat} {ev : AttemptEv}
    (hp : preparePayload payload = .ok p)
    (h : (transform mn oj imr ird oracle vald omr ord payload meta0 cum0).1.get? k =
      some ev)
    (hk : 1 ≤ ev.idx) :
    ev.parsed = (match oracle ev.idx with
      | .reply r => jsonParse r.text
      | .fail _ => none) := by
  rw [transform_run hp] at h
  obtain ⟨hidx, -, hparsed, -⟩ := runAttempts_events _ _ _ _ _ _ h
  rw [hparsed]
  have hik : (0 : Nat) + k = ev.idx := by omega
  rw [hik]
  exact @attParsedV_rebuild ⟨mn, oj, oracle, vald, effOption omr imr, effOption ord ird⟩
    ev.idx (by omega)

/-- The rebuild attempt of the C1 run, as recorded in the trace. -/
def c1Ev : AttemptEv :=
  ⟨1, .rebuildCall (.value c1Inner) ("bad".toList), some c1Wrapper, .ok c1Wrapper, none⟩

/-- Witness for C1 at the concrete run. -/
theorem c1_witness :
    c1Ev.parsed = (match c1Oracle c1Ev.idx with
      | .reply r => jsonParse r.text
      | .fail _ => none) :=
  @c1_rebuild_bare_parse ("m".toList) true 3 1000 c1Oracle c1Vald (some 1) (some 100)
    .jnull ('{' :: '}' :: []) none zeroCum 1 c1Ev (by decide) (by decide) (by decide)

/-- C3 oracle: replies with unparseable text but with token usage
reported on every attempt. -/
def c3Oracle : Nat → CallOutcome := fun _ => .reply ⟨"nope".toList, some ⟨3, 4, 7⟩, none⟩

/-- C3 validator: accepts everything (never reached). -/
def c3Vald : Nat → Json → Option (List Char) := fun _ _ => none

/-- The C3 run: two attempts, both failing at extraction/parse. -/
def c3Run : List AttemptEv × OState × Except (List Char) Json :=
  transform ("m".toList) true 3 1000 c3Oracle c3Vald (some 1) (some 100) .jnull none zeroCum

/-- Claim C3, counterexample: a run of two attempts that both fail at
the extraction/parse stage (usage was reported by the collaborator on
both) ends with the accumulator still at zero — `attempts` is 0, not 2,
because the thrown extraction error skips the accumulation block. -/
theorem c3_counterexample :
    c3Run.1.length = 2 ∧ c3Run.2.1.cum = zeroCum := by
  refine ⟨by decide, by decide⟩

/-- Claim C3 (corrected): the accumulator is reset at the start of the
call and then updated only on attempts whose collaborator call and
parse stage both succeed (`stepCum`/`attParseRes`); validator-rejected
attempts are still recorded (the update runs before validation), but
attempts that fail in the collaborator or the parser are skipped, so
after k attempts the accumulator holds the fold of the per-attempt
update over the successful-parse attempts, not necessarily
`attempts == k`. -/
theorem c3_usage_accumulation {mn : List Char} {oj : Bool} {imr ird : Nat}
    {oracle : Nat → CallOutcome} {vald : Nat → Json → Option (List Char)}
    {omr ord : Option Nat} {payload : JsPayload} {p : List Char}
    {meta0 : Option Meta} {cum0 : CumUsage}
    (hp : preparePayload payload = .ok p) :
    (transform mn oj imr ird oracle vald omr ord payload meta0 cum0).2.1.cum =
      cumFold ⟨mn, oj, oracle, vald, effOption omr imr, effOption ord ird⟩ zeroCum 0
        (transform mn oj imr ird oracle vald omr ord payload meta0 cum0).1.length := by
  rw [transform_run hp]
  exact runAttempts_cum _ _ _ _

/-- Witness for C3 at the concrete run. -/
theorem c3_witness :
    c3Run.2.1.cum =
      cumFold ⟨"m".toList, true, c3Oracle, c3Vald, 1, 100⟩ zeroCum 0 c3Run.1.length :=
  @c3_usage_accumulation ("m".toList) true 3 1000 c3Oracle c3Vald (some 1) (some 100)
    .jnull ('{' :: '}' :: []) none zeroCum (by decide)

/-- C5 oracle: always a parseable reply with usage. -/
def c5Oracle : Nat → CallOutcome :=
  fun _ => .reply ⟨"\x7b\"x\": 1\x7d".toList, some ⟨1, 1, 2⟩, none⟩

/-- C5 validator: always rejects. -/
def c5Vald : Nat → Json → Option (List Char) := fun _ _ => some ("no good".toList)

/-- Every attempt of the C5 environment fails (at validation). -/
theorem c5_allFail :
    ∀ i, ∃ m, attOutcome ⟨"m".toList, true, c5Oracle, c5Vald, 2, 100⟩ i = .error m := by
  intro i
  refine ⟨"no good".toList, ?_⟩
  by_cases hi : i = 0
  · subst hi
    decide
  · have hjp : jsonParse ['{', '"', 'x', '"', ':', ' ', '1', '}'] =
        some (.obj [(['x'], .num ['1'])]) := by
      decide
    simp [attOutcome, attCollab, hi, rebuildStep, c5Oracle, hjp, c5Vald]

/-- Claim C5 (confirmed): the attempt count never exceeds
`maxRetries + 1`; and when every attempt fails, a `transform()` call
makes exactly `maxRetries + 1` attempts and rejects with a single
aggregate error whose message states that attempt count and includes
the final underlying error's message — in particular the message
contains the substring `failed after N attempts` the spec's regex looks
for. -/
theorem c5_retry_budget :
    (∀ (e : Env) (rem att : Nat) (st : OState),
        (runAttempts e rem att st).1.length ≤ rem + 1) ∧
    (∀ (mn : List Char) (oj : Bool) (imr ird : Nat)
        (oracle : Nat → CallOutcome) (vald : Nat → Json → Option (List Char))
        (omr ord : Option Nat) (payload : JsPayload) (p : List Char)
        (meta0 : Option Meta) (cum0 : CumUsage),
        preparePayload payload = .ok p →
        (∀ i, ∃ m, attOutcome ⟨mn, oj, oracle, vald, effOption omr imr,
            effOption ord ird⟩ i = .error m) →
        (transform mn oj imr ird oracle vald omr ord payload meta0 cum0).1.length =
            effOption omr imr + 1 ∧
          (transform mn oj imr ird oracle vald omr ord payload meta0 cum0).2.2 =
            .error (aggMsg (effOption omr imr)
              (attErrMsg ⟨mn, oj, oracle, vald, effOption omr imr, effOption ord ird⟩
                (effOption omr imr))) ∧
          ("failed after ".toList ++ natChars (effOption omr imr + 1) ++
              " attempts".toList) <:+:
            aggMsg (effOption omr imr)
              (attErrMsg ⟨mn, oj, oracle, vald, effOption omr imr, effOption ord ird⟩
                (effOption omr imr))) := by
  constructor
  · exact fun e rem att st => runAttempts_length_le e rem att st
  · intro mn oj imr ird oracle vald omr ord payload p meta0 cum0 hp hf
    rw [transform_run hp]
    obtain ⟨h1, h2⟩ := runAttempts_allFail _ hf (effOption omr imr) 0
      ⟨none, .rawStr p, meta0, zeroCum⟩
    refine ⟨h1, ?_, aggMsg_infix _ _⟩
    rw [h2]
    simp [Nat.zero_add]

/-- Witness for C5: `maxRetries 2`, always-failing validator — three
attempts and a message containing `failed after 3 attempts`. -/
theorem c5_witness :
    (transform ("m".toList) true 3 1000 c5Oracle c5Vald (some 2) (some 100)
        (.jobj (.obj [])) none zeroCum).1.length = effOption (some 2) 3 + 1 ∧
      (transform ("m".toList) true 3 1000 c5Oracle c5Vald (some 2) (some 100)
          (.jobj (.obj [])) none zeroCum).2.2 =
        .error (aggMsg (effOption (some 2) 3)
          (attErrMsg ⟨"m".toList, true, c5Oracle, c5Vald, effOption (some 2) 3,
            effOption (some 100) 1000⟩ (effOption (some 2) 3))) ∧
      ("failed after ".toList ++ natChars (effOption (some 2) 3 + 1) ++
          " attempts".toList) <:+:
        aggMsg (effOption (some 2) 3)
          (attErrMsg ⟨"m".toList, true, c5Oracle, c5Vald, effOption (some 2) 3,
            effOption (some 100) 1000⟩ (effOption (some 2) 3)) :=
  c5_retry_budget.2 ("m".toList) true 3 1000 c5Oracle c5Vald (some 2) (some 100)
    (.jobj (.obj [])) (stringify2 (.obj [])) none zeroCum rfl c5_allFail

/-- Claim C6 (confirmed): payload normalization before attempt 0 — an
object/array is serialized with `JSON.stringify(·, null, 2)`, a string
passes through unchanged, a boolean or number is stringified,
`null`/`undefined` become the empty-object text `\x7b\x7d`, and every
other value (function, non-serializable object) fails immediately with
the non-retryable invalid-payload error, before any attempt runs; with
a null payload the loop does run (at least one attempt). -/
theorem c6_payload_normalization :
    (∀ j, isObjArr j = true → preparePayload (.jobj j) = .ok (stringify2 j)) ∧
    (∀ j, isObjArr j = false → preparePayload (.jobj j) = .error invalidPayloadMsg) ∧
    (∀ s, preparePayload (.jstr s) = .ok s) ∧
    (preparePayload (.jbool true) = .ok ("true".toList) ∧
      preparePayload (.jbool false) = .ok ("false".toList)) ∧
    (∀ z rdr, preparePayload (.jnum z rdr) = .ok rdr) ∧
    (preparePayload .jnull = .ok ['{', '}'] ∧
      preparePayload .jundef = .ok ['{', '}']) ∧
    preparePayload .jother = .error invalidPayloadMsg ∧
    (∀ (mn : List Char) (oj : Bool) (imr ird : Nat)
        (oracle : Nat → CallOutcome) (vald : Nat → Json → Option (List Char))
        (omr ord : Option Nat) (meta0 : Option Meta) (cum0 : CumUsage),
        transform mn oj imr ird oracle vald omr ord .jother meta0 cum0 =
          ([], ⟨none, .rawStr [], meta0, cum0⟩, .error invalidPayloadMsg)) ∧
    (∀ (mn : List Char) (oj : Bool) (imr ird : Nat)
        (oracle : Nat → CallOutcome) (vald : Nat → Json → Option (List Char))
        (omr ord : Option Nat) (meta0 : Option Meta) (cum0 : CumUsage),
        1 ≤ (transform mn oj imr ird oracle vald omr ord .jnull meta0 cum0).1.length) := by
  refine ⟨?_, ?_, fun s => rfl, ⟨rfl, rfl⟩, fun z rdr => rfl, ⟨rfl, rfl⟩, rfl, ?_, ?_⟩
  · intro j hj
    simp [preparePayload, hj]
  · intro j hj
    simp [preparePayload, hj]
  · intro mn oj imr ird oracle vald omr ord meta0 cum0
    exact transform_invalid (show preparePayload .jother = .error invalidPayloadMsg from rfl)
  · intro mn oj imr ird oracle vald omr ord meta0 cum0
    rw [transform_run (show preparePayload .jnull = .ok ('{' :: '}' :: []) from rfl)]
    exact runAttempts_length_pos _ _ _ _

/-- Witness for C6: concrete payloads through the normalization, and a
null payload reaching the loop. -/
theorem c6_witness :
    preparePayload (.jobj (.obj [(['a'], .num ['1'])])) =
      .ok (stringify2 (.obj [(['a'], .num ['1'])])) ∧
    preparePayload (.jobj (.str ("x".toList))) = .error invalidPayloadMsg ∧
    1 ≤ (transform ("m".toList) true 3 1000 c1Oracle c1Vald none none .jnull
      none zeroCum).1.length :=
  ⟨c6_payload_normalization.1 _ (by decide),
    c6_payload_normalization.2.1 _ (by decide),
    c6_payload_normalization.2.2.2.2.2.2.2.2 ("m".toList) true 3 1000 c1Oracle c1Vald
      none none none zeroCum⟩

/-- Claim C7 (confirmed): on every attempt whose parse stage succeeds,
`lastPayload` is assigned the freshly extracted value strictly before
the validator runs (even when validation then fails), so the next
attempt's rebuild call receives exactly that failing value together
with the validator's error message. -/
theorem c7_last_value_feedback :
    (∀ (e : Env) (i : Nat) (st : OState) (v : Json),
        (attemptStep e i st).2.1 = some v →
        (attemptStep e i st).2.2.2.lastPayload = .value v) ∧
    (∀ (mn : List Char) (oj : Bool) (imr ird : Nat)
        (oracle : Nat → CallOutcome) (vald : Nat → Json → Option (List Char))
        (omr ord : Option Nat) (payload : JsPayload) (p : List Char)
        (meta0 : Option Meta) (cum0 : CumUsage) (k : Nat) (ev ev' : AttemptEv)
        (v : Json) (m : List Char),
        preparePayload payload = .ok p →
        (transform mn oj imr ird oracle vald omr ord payload meta0 cum0).1.get? k =
          some ev →
        (transform mn oj imr ird oracle vald omr ord payload meta0 cum0).1.get? (k + 1) =
          some ev' →
        ev.parsed = some v → ev.outcome = .error m →
        ev'.call = .rebuildCall (.value v) m) := by
  constructor
  · exact fun e i st v h => attemptStep_lastPayload_of_parsed h
  · intro mn oj imr ird oracle vald omr ord payload p meta0 cum0 k ev ev' v m hp h1 h2 hv hm
    rw [transform_run hp] at h1 h2
    exact runAttempts_feedback _ _ _ _ _ _ _ _ _ h1 h2 hv hm

/-- Witness for C7 at the concrete C1 run: the validator rejected the
unwrapped value of attempt 0, and attempt 1's rebuild call carries that
value and the rejection message. -/
theorem c7_witness :
    c1Ev.call = .rebuildCall (.value c1Inner) ("bad".toList) :=
  c7_last_value_feedback.2 ("m".toList) true 3 1000 c1Oracle c1Vald (some 1) (some 100)
    .jnull ('{' :: '}' :: []) none zeroCum 0
    ⟨0, .send ('{' :: '}' :: []), some c1Inner, .error ("bad".toList), some 100⟩
    c1Ev c1Inner ("bad".toList) (by decide) (by decide) (by decide) (by decide) (by decide)

/-- C8 validator: reject attempts 0 and 1, accept attempt 2. -/
def c8Vald : Nat → Json → Option (List Char) :=
  fun i _ => if i ≤ 1 then some ("v fail".toList) else none

/-- The C8 run: `retryDelay` 100 and two forced failures before
success. -/
def c8Run : List AttemptEv × OState × Except (List Char) Json :=
  transform ("m".toList) true 3 1000 c5Oracle c8Vald (some 3) (some 100) .jnull none zeroCum

/-- Claim C8 (confirmed): after every failed non-final attempt, the
scheduled delay is exactly `retryDelay * 2 ^ attemptIndex` (no jitter);
and in the concrete run with `retryDelay` 100 and failures on attempts
0 and 1, the scheduled delays are 100 ms and 200 ms, totalling 300 ms
before the third attempt. -/
theorem c8_exponential_backoff :
    (∀ (mn : List Char) (oj : Bool) (imr ird : Nat)
        (oracle : Nat → CallOutcome) (vald : Nat → Json → Option (List Char))
        (omr ord : Option Nat) (payload : JsPayload) (p : List Char)
        (meta0 : Option Meta) (cum0 : CumUsage) (k : Nat) (ev : AttemptEv),
        preparePayload payload = .ok p →
        (transform mn oj imr ird oracle vald omr ord payload meta0 cum0).1.get? k =
          some ev →
        ev.idx = k ∧
          ev.delayMs = (if k + 1 <
              (transform mn oj imr ird oracle vald omr ord payload meta0 cum0).1.length
            then some (effOption ord ird * 2 ^ k) else none)) ∧
    (c8Run.1.map AttemptEv.delayMs = [some 100, some 200, none] ∧
      (c8Run.1.filterMap AttemptEv.delayMs).sum = 100 + 200) := by
  constructor
  · intro mn oj imr ird oracle vald omr ord payload p meta0 cum0 k ev hp h
    rw [transform_run hp] at h ⊢
    obtain ⟨hidx, -, -, hdel⟩ := runAttempts_events _ _ _ _ _ _ h
    rw [Nat.zero_add] at hidx
    exact ⟨hidx, by rw [hdel, Nat.zero_add]⟩
  · exact ⟨by decide, by decide⟩

/-- Witness for C8 at the concrete run's first attempt. -/
theorem c8_witness :
    (⟨0, .send ('{' :: '}' :: []), some (.obj [(['x'], .num ['1'])]),
        .error ("v fail".toList), some 100⟩ : AttemptEv).idx = 0 ∧
      (⟨0, .send ('{' :: '}' :: []), some (.obj [(['x'], .num ['1'])]),
          .error ("v fail".toList), some 100⟩ : AttemptEv).delayMs =
        (if 0 + 1 < (transform ("m".toList) true 3 1000 c5Oracle c8Vald (some 3)
            (some 100) .jnull none zeroCum).1.length
          then some (effOption (some 100) 1000 * 2 ^ 0) else none) :=
  c8_exponential_backoff.1 ("m".toList) true 3 1000 c5Oracle c8Vald (some 3) (some 100)
    .jnull ('{' :: '}' :: []) none zeroCum 0 _ (by decide) (by decide)

/-- C9 oracle: a reply whose envelope carries a falsy `data` field. -/
def c9OracleFalsy : Nat → CallOutcome :=
  fun _ => .reply ⟨"\x7b\"data\": false\x7d".toList, none, none⟩

/-- C9 oracle: a reply whose envelope carries a truthy `data` field. -/
def c9OracleTruthy : Nat → CallOutcome :=
  fun _ => .reply ⟨"\x7b\"data\": [1]\x7d".toList, none, none⟩

/-- Accept-everything validator. -/
def c9Vald : Nat → Json → Option (List Char) := fun _ _ => none

/-- Claim C9 (confirmed): envelope unwrapping is keyed on JavaScript
truthiness, not key presence — for an extracted object with a `data`
field, `message()`/`transform()` and `statelessMessage` return the
field's value exactly when it is truthy and the whole wrapper object
otherwise; concretely, `\x7b"data": false\x7d` resolves to the wrapper
while `\x7b"data": [1]\x7d` resolves to `[1]`. -/
theorem c9_envelope_truthiness :
    (∀ fields d, objGet fields ("data".toList) = some d →
        unwrapData (.obj fields) = (if jsTruthy d then d else .obj fields)) ∧
    (∀ fields, objGet fields ("data".toList) = none →
        unwrapData (.obj fields) = .obj fields) ∧
    (∀ j, unwrapDataStateless j = unwrapData j) ∧
    (∀ (mn : List Char) (oj : Bool) (now : Nat) (r : ModelReply) (j : Json),
        extractJSON r.text = .ok j →
        (rawMessageStep mn oj now (.reply r)).2 = .ok (unwrapData j)) ∧
    (∀ r : ModelReply,
        statelessValue r = Except.map unwrapDataStateless (extractJSON r.text)) ∧
    (transform ("m".toList) true 3 1000 c9OracleFalsy c9Vald none none .jnull
        none zeroCum).2.2 = .ok (.obj [("data".toList, .bool false)]) ∧
    (transform ("m".toList) true 3 1000 c9OracleTruthy c9Vald none none .jnull
        none zeroCum).2.2 = .ok (.arr [.num ['1']]) := by
  refine ⟨?_, ?_, ?_, ?_, ?_, by decide, by decide⟩
  · intro fields d h
    rw [unwrapData, h]
  · intro fields h
    rw [unwrapData, h]
  · intro j
    cases j <;> rfl
  · intro mn oj now r j h
    exact rawMessageStep_ok h
  · intro r
    rw [statelessValue]
    rcases hx : extractJSON r.text with m | j <;> simp [Except.map]

/-- Witness for C9: a falsy and a truthy `data` field through the
unwrap. -/
theorem c9_witness :
    unwrapData (.obj [("data".toList, .bool false)]) =
      (if jsTruthy (.bool false) then (.bool false) else .obj [("data".toList, .bool false)]) ∧
    unwrapData (.obj [("data".toList, .arr [.num ['1']])]) =
      (if jsTruthy (.arr [.num ['1']]) then (.arr [.num ['1']])
        else .obj [("data".toList, .arr [.num ['1']])]) :=
  ⟨c9_envelope_truthiness.1 _ _ (by decide), c9_envelope_truthiness.1 _ _ (by decide)⟩

/-- Claim C10 (confirmed): a zero retry setting is honored per call but
not at construction — `options.maxRetries || 3` and
`options.retryDelay || 1000` in the constructor silently replace 0 by
the defaults, while the per-call `options.maxRetries ?? this.maxRetries`
and `options.retryDelay ?? this.retryDelay` keep an explicit 0, giving
a single attempt and zero scheduled delay for that call. -/
theorem c10_zero_retry_settings :
    (∀ r, ctorMaxRetries ⟨some 0, r⟩ = 3) ∧
    (∀ m, ctorRetryDelay ⟨m, some 0⟩ = 1000) ∧
    (∀ inst, effOption (some 0) inst = 0) ∧
    (∀ (mn : List Char) (oj : Bool) (imr ird : Nat)
        (oracle : Nat → CallOutcome) (vald : Nat → Json → Option (List Char))
        (ord : Option Nat) (payload : JsPayload) (p : List Char)
        (meta0 : Option Meta) (cum0 : CumUsage),
        preparePayload payload = .ok p →
        (transform mn oj imr ird oracle vald (some 0) ord payload meta0 cum0).1.length
          = 1) ∧
    (∀ (mn : List Char) (oj : Bool) (imr ird : Nat)
        (oracle : Nat → CallOutcome) (vald : Nat → Json → Option (List Char))
        (omr : Option Nat) (payload : JsPayload) (p : List Char)
        (meta0 : Option Meta) (cum0 : CumUsage) (k : Nat) (ev : AttemptEv),
        preparePayload payload = .ok p →
        (transform mn oj imr ird oracle vald omr (some 0) payload meta0 cum0).1.get? k
          = some ev →
        ev.delayMs = none ∨ ev.delayMs = some 0) := by
  refine ⟨fun r => rfl, fun m => rfl, fun inst => rfl, ?_, ?_⟩
  · intro mn oj imr ird oracle vald ord payload p meta0 cum0 hp
    rw [transform_run hp]
    have h1 : (runAttempts
        ⟨mn, oj, oracle, vald, effOption (some 0) imr, effOption ord ird⟩
        (effOption (some 0) imr) 0 ⟨none, .rawStr p, meta0, zeroCum⟩).1.length ≤ 0 + 1 :=
      runAttempts_length_le _ _ _ _
    have h2 := runAttempts_length_pos
      ⟨mn, oj, oracle, vald, effOption (some 0) imr, effOption ord ird⟩
      (effOption (some 0) imr) 0 ⟨none, .rawStr p, meta0, zeroCum⟩
    omega
  · intro mn oj imr ird oracle vald omr payload p meta0 cum0 k ev hp h
    rw [transform_run hp] at h
    obtain ⟨-, -, -, hdel⟩ := runAttempts_events _ _ _ _ _ _ h
    rw [hdel]
    split
    · right
      simp [effOption]
    · left
      rfl

/-- Witness for C10: a per-call `maxRetries: 0` makes exactly one
attempt. -/
theorem c10_witness :
    (transform ("m".toList) true 3 1000 c5Oracle c5Vald (some 0) (some 100) .jnull
      none zeroCum).1.length = 1 :=
  c10_zero_retry_settings.2.2.2.1 ("m".toList) true 3 1000 c5Oracle c5Vald (some 100)
    .jnull ('{' :: '}' :: []) none zeroCum (by decide)
